import Mathlib

set_option linter.unusedVariables false

/-! Character-level utilities modelling Python string primitives in ASCII
scope (plus the CJK Unified Ideographs block).  The inputs of the repository are
English/Chinese medical text, so the Unicode-aware Python `str.strip`,
`str.split`, `str.isupper`, `re.IGNORECASE` and the word class of the `re`
module are modelled on the ASCII subset, with CJK ideographs (which are
caseless word characters in Python) handled explicitly. -/

def isWsA (c : Char) : Bool :=
  c.toNat = 32 || c.toNat = 9 || c.toNat = 10 || c.toNat = 13 ||
  c.toNat = 11 || c.toNat = 12

def isDigitA (c : Char) : Bool := 48 ≤ c.toNat && c.toNat ≤ 57

def isUpperA (c : Char) : Bool := 65 ≤ c.toNat && c.toNat ≤ 90

def isLowerA (c : Char) : Bool := 97 ≤ c.toNat && c.toNat ≤ 122

def isAlphaA (c : Char) : Bool := isUpperA c || isLowerA c

def isAlnumA (c : Char) : Bool := isAlphaA c || isDigitA c

/-- The CJK Unified Ideographs range tested by `build_matcher`
(`"一" <= ch <= "鿿"`). -/
def isCJK (c : Char) : Bool := 0x4e00 ≤ c.toNat && c.toNat ≤ 0x9fff

/-- Python regex word character (`\w`) restricted to the modelled alphabet:
ASCII alphanumerics, underscore, and CJK ideographs (which are word
characters for the Unicode `\b` of Python). -/
def isWordA (c : Char) : Bool := isAlnumA c || c.toNat = 95 || isCJK c

/-- ASCII lowercasing, modelling the effect of `re.IGNORECASE` on the
modelled alphabet (CJK ideographs are caseless). -/
def lowerA (c : Char) : Char :=
  if isUpperA c then Char.ofNat (c.toNat + 32) else c

/-- Python `str.strip()` from the left. -/
def stripLeftA (l : List Char) : List Char := l.dropWhile isWsA

/-- Python `str.strip()`: whitespace removed from both ends. -/
def stripA (l : List Char) : List Char :=
  stripLeftA ((stripLeftA l.reverse).reverse)

/-- Convenience: the character list of a string literal. -/
def cl (s : String) : List Char := s.toList

/-- Python `str.split()` (no separator): split on whitespace runs,
dropping empty tokens.  Auxiliary: `cur` is the reversed current token. -/
def splitWsAux : List Char → List Char → List (List Char)
  | [], cur => if cur = [] then [] else [cur.reverse]
  | c :: rest, cur =>
    if isWsA c then
      (if cur = [] then splitWsAux rest [] else cur.reverse :: splitWsAux rest [])
    else splitWsAux rest (c :: cur)

def splitWs (l : List Char) : List (List Char) := splitWsAux l []

/-! The JSON-like value model.  `json.loads` produces `None`, `str`,
`int`/`float`, `bool`, `dict` (string keys, unique), and `list`; numbers are
modelled as integers (no claim concerns float formatting).  Strings are
modelled as `List Char`. -/

inductive Json where
  | null
  | str (s : List Char)
  | num (n : Int)
  | bool (b : Bool)
  | obj (fields : List (List Char × Json))
  | arr (elems : List Json)

/-- Python `str(n)` for an integer: auxiliary digit emitter (given enough
fuel it emits the decimal digits of `n`, most significant first). -/
def natCharsAux : Nat → Nat → List Char → List Char
  | 0, _, acc => acc
  | fuel + 1, n, acc =>
    let acc' := Char.ofNat (48 + n % 10) :: acc
    if n < 10 then acc' else natCharsAux fuel (n / 10) acc'

def natChars (n : Nat) : List Char := natCharsAux (n + 1) n []

/-- Python `str(n)` for an `int` record value. -/
def intChars (n : Int) : List Char :=
  if n < 0 then Char.ofNat 45 :: natChars n.natAbs else natChars n.natAbs

/-- Python `str(True)` / `str(False)`. -/
def boolChars (b : Bool) : List Char := if b then cl "True" else cl "False"

/-! `flatten_strings` (extract_heart_disease.py, lines 91-125).
`flattenAll*` is the unbounded depth-first fragment sequence; `visitJ*`
mirrors the Python `visit` closure with its `out` accumulator and the
`len(out) >= max_items` early returns. -/

mutual
/-- Unbounded depth-first flattening of a record into trimmed non-empty
fragments (the limit-free skeleton of `flatten_strings`). -/
def flattenAll : Json → List (List Char)
  | .null => []
  | .str s => if stripA s = [] then [] else [stripA s]
  | .num n => [intChars n]
  | .bool b => [boolChars b]
  | .obj fields => flattenAllFields fields
  | .arr elems => flattenAllList elems

def flattenAllFields : List (List Char × Json) → List (List Char)
  | [] => []
  | (k, v) :: rest =>
    (if stripA k = [] then [] else [stripA k]) ++ flattenAll v ++ flattenAllFields rest

def flattenAllList : List Json → List (List Char)
  | [] => []
  | v :: rest => flattenAll v ++ flattenAllList rest
end

mutual
/-- The `visit` closure of `flatten_strings`: appends fragments to `out`
and returns as soon as `len(out) >= max_items`. -/
def visitJ (mx : Nat) : Json → List (List Char) → List (List Char)
  | v, out =>
    if mx ≤ out.length then out
    else
      match v with
      | .null => out
      | .str s => if stripA s = [] then out else out ++ [stripA s]
      | .num n => out ++ [intChars n]
      | .bool b => out ++ [boolChars b]
      | .obj fields => visitFields mx fields out
      | .arr elems => visitList mx elems out

/-- The `for k, vv in v.items()` loop of `visit`: per-iteration limit
check, then the trimmed non-empty key, then the recursive visit. -/
def visitFields (mx : Nat) : List (List Char × Json) → List (List Char) → List (List Char)
  | [], out => out
  | (k, v) :: rest, out =>
    if mx ≤ out.length then out
    else
      let out1 := if stripA k = [] then out else out ++ [stripA k]
      visitFields mx rest (visitJ mx v out1)

/-- The `for vv in v` loop of `visit` over sequence values. -/
def visitList (mx : Nat) : List Json → List (List Char) → List (List Char)
  | [], out => out
  | v :: rest, out =>
    if mx ≤ out.length then out
    else visitList mx rest (visitJ mx v out)
end

/-- Function `flatten_strings(value, max_items)` (lines 91-125): run `visit` on an
empty accumulator and return `out[:max_items]`. -/
def flatten_strings (v : Json) (mx : Nat) : List (List Char) :=
  (visitJ mx v []).take mx

example : flatten_strings (.obj [(cl "a", .str (cl "  x  ")), (cl "", .arr [.str (cl "y"), .str (cl "z")])]) 3 = [cl "a", cl "x", cl "y"] := by decide

/-! `build_matcher` (lines 166-198).  The compiled regex is an alternation
of per-keyword sub-patterns; we embed it as a syntax tree `Matcher` plus an
executable matching semantics mirroring Python `re` on it:
  - `.lit cs`    — `re.escape(kw)` — a plain literal;
  - `.word cs`   — `\b` + `re.escape(kw)` + `\b`;
  - `.phrase ts` — `\b t1 \s+ t2 ... \b` for whitespace-split tokens;
  - `Matcher.never` — the `(?!.*)` pattern, which matches nothing.
All matching is case-insensitive (`re.IGNORECASE`), modelled by ASCII
lowercasing. -/

inductive MPart where
  | lit (cs : List Char)
  | word (cs : List Char)
  | phrase (tokens : List (List Char))
deriving DecidableEq

inductive Matcher where
  | never
  | alts (parts : List MPart)
deriving DecidableEq

/-- The keyword-cleaning loop of `build_matcher` (lines 167-171): strip
each keyword, keep the non-empty ones. -/
def cleanKeywords (kws : List (List Char)) : List (List Char) :=
  kws.filterMap (fun kw => let k := stripA kw; if k = [] then none else some k)

/-- Python `str.isupper()` on the modelled alphabet: at least one cased
character and every cased character uppercase. -/
def isupperPy (l : List Char) : Bool :=
  l.any isAlphaA && l.all (fun c => !isLowerA c)

/-- The per-keyword classification of `build_matcher` (lines 177-195),
applied to one cleaned keyword. -/
def buildPart (kw : List Char) : MPart :=
  if kw.any isCJK then .lit kw
  else
    let ks := stripA kw
    let simple_wordish := ks ≠ [] && ks.all isAlnumA
    let is_short := ks.length ≤ 3
    let is_all_caps := isupperPy ks && ks.any isAlphaA
    if simple_wordish && (is_short || is_all_caps) then .word ks
    else
      let tokens := splitWs ks
      if tokens.length > 1 then .phrase tokens else .lit ks

/-- Function `build_matcher(keywords)` (lines 166-198): returns the compiled
matcher and the cleaned keyword list; with no surviving keyword it returns
the never-matching pattern `(?!.*)`. -/
def build_matcher (kws : List (List Char)) : Matcher × List (List Char) :=
  let cleaned := cleanKeywords kws
  if cleaned = [] then (.never, [])
  else (.alts (cleaned.map buildPart), cleaned)

/-- Case-insensitive equality of characters under `re.IGNORECASE`. -/
def ciEqA (a b : Char) : Bool := lowerA a = lowerA b

/-- Case-insensitive "pattern is an initial segment of text". -/
def ciLeading : List Char → List Char → Bool
  | [], _ => true
  | _ :: _, [] => false
  | p :: ps, t :: ts => ciEqA p t && ciLeading ps ts

/-- Whether position `i` of `text` holds a word character
(out of range counts as non-word). -/
def wcIdx (text : List Char) (i : Nat) : Bool :=
  match text[i]? with
  | some c => isWordA c
  | none => false

/-- Python regex `\b` at gap position `i` (between `i-1` and `i`):
exactly one side is a word character. -/
def boundaryAt (text : List Char) (i : Nat) : Bool :=
  (match i with | 0 => false | j + 1 => wcIdx text j) != wcIdx text i

/-- Matching a plain escaped literal at position `i`; returns the length
of the match. -/
def matchLit (cs text : List Char) (i : Nat) : Option Nat :=
  if ciLeading cs (text.drop i) then some cs.length else none

/-- Matching `\b cs \b` at position `i`. -/
def matchWord (cs text : List Char) (i : Nat) : Option Nat :=
  if boundaryAt text i && ciLeading cs (text.drop i) && boundaryAt text (i + cs.length)
  then some cs.length else none

/-- The length of the whitespace run of `text` starting at `j`. -/
def wsRunFrom (text : List Char) (j : Nat) : Nat :=
  ((text.drop j).takeWhile isWsA).length

/-- Matching the token chain `t1 \s+ t2 \s+ ... tn` from position `j`;
returns the end position.  Because whitespace-split tokens never start
with whitespace, the greedy/backtracking `\s+` of Python `re` succeeds
iff consuming the whole whitespace run does, so maximal munch is the
faithful semantics here. -/
def matchTokensFrom : List (List Char) → List Char → Nat → Option Nat
  | [], _, j => some j
  | [t], text, j => if ciLeading t (text.drop j) then some (j + t.length) else none
  | t :: t' :: rest, text, j =>
    if ciLeading t (text.drop j) then
      let j1 := j + t.length
      let ws := wsRunFrom text j1
      if ws = 0 then none else matchTokensFrom (t' :: rest) text (j1 + ws)
    else none

/-- Matching `\b t1 \s+ ... tn \b` at position `i`; returns the length. -/
def matchPhrase (tokens : List (List Char)) (text : List Char) (i : Nat) : Option Nat :=
  if boundaryAt text i then
    match matchTokensFrom tokens text i with
    | some e => if boundaryAt text e then some (e - i) else none
    | none => none
  else none

def matchPartAt : MPart → List Char → Nat → Option Nat
  | .lit cs, text, i => matchLit cs text i
  | .word cs, text, i => matchWord cs text i
  | .phrase ts, text, i => matchPhrase ts text i

/-- Regex alternation at one position: the alternatives are tried in
order and the first that matches wins. -/
def matchAltsAt : List MPart → List Char → Nat → Option Nat
  | [], _, _ => none
  | p :: ps, text, i =>
    match matchPartAt p text i with
    | some n => some n
    | none => matchAltsAt ps text i

def matcherMatchAt : Matcher → List Char → Nat → Option Nat
  | .never, _, _ => none
  | .alts ps, text, i => matchAltsAt ps text i

/-- Semantics of `pattern.finditer(text)`: successive non-overlapping leftmost matches,
each resuming at the end of the previous one.  Fuel-indexed scan over
positions (every match of our matchers is non-empty, so `text.length + 1`
fuel always suffices). -/
def finditerAux (m : Matcher) (text : List Char) : Nat → Nat → List (List Char)
  | 0, _ => []
  | fuel + 1, i =>
    if text.length < i then []
    else
      match matcherMatchAt m text i with
      | some n => (text.drop i).take n :: finditerAux m text fuel (i + n)
      | none => finditerAux m text fuel (i + 1)

def finditer (m : Matcher) (text : List Char) : List (List Char) :=
  finditerAux m text (text.length + 1) 0

/-- Function `detect_matches(pattern, text, max_hits)` (lines 201-207): collect the
matched substrings, breaking once `len(hits) >= max_hits`. -/
def detectAux (maxHits : Nat) : List (List Char) → Nat → List (List Char)
  | [], _ => []
  | h :: t, sofar =>
    h :: (if maxHits ≤ sofar + 1 then [] else detectAux maxHits t (sofar + 1))

def detect_matches (m : Matcher) (text : List Char) (maxHits : Nat) : List (List Char) :=
  detectAux maxHits (finditer m text) 0

example : build_matcher [cl " MI ", cl "  "] = (.alts [.word (cl "MI")], [cl "MI"]) := by decide
example : detect_matches (build_matcher [cl "MI"]).1 (cl "in Miami a MI, mi too") 20 = [cl "MI", cl "mi"] := by decide
example : detect_matches (build_matcher [cl "heart failure"]).1 (cl "has heart   FAILURE now") 20 = [cl "heart   FAILURE"] := by decide
example : detect_matches (build_matcher [cl "心脏"]).1 (cl "患有心脏病史") 20 = [cl "心脏"] := by decide
example : detect_matches (build_matcher []).1 (cl "anything") 20 = [] := by decide

/-! Field filtering (`_filter_record_fields`, `extract_text_from_record`,
`filter_record_for_output`, lines 128-163).  Records coming from
`json.loads` have unique keys, so association lists with first-occurrence
lookup are a faithful dict model. -/

def lookupKey : List (List Char × Json) → List Char → Option Json
  | [], _ => none
  | (k, v) :: rest, t => if k = t then some v else lookupKey rest t

/-- Key dedup keeping the first occurrence (the insertion-order semantics
of building a dict from a key list that may repeat). -/
def dedupKeys : List (List Char) → List (List Char)
  | [] => []
  | k :: rest => k :: (dedupKeys rest).filter (fun k2 => k2 ≠ k)

/-- Helper `_filter_record_fields(record, include_fields, exclude_fields)`
(lines 141-153) on the field list of a mapping.  `include_fields` is `None` or
a non-empty list in `main` (`... or None`), so `Option` mirrors the
truthiness tests. -/
def filterRecordFields (fields : List (List Char × Json))
    (includeFields : Option (List (List Char))) (excludeFields : List (List Char)) :
    List (List Char × Json) :=
  match includeFields with
  | some incl =>
    if incl ≠ [] then
      (dedupKeys incl).filterMap (fun f => (lookupKey fields f).map (fun v => (f, v)))
    else if excludeFields ≠ [] then fields.filter (fun kv => ¬ excludeFields.contains kv.1)
    else fields
  | none =>
    if excludeFields ≠ [] then fields.filter (fun kv => ¬ excludeFields.contains kv.1)
    else fields

/-- Python `" ".join(fragments)`. -/
def joinSpace : List (List Char) → List Char
  | [] => []
  | [x] => x
  | x :: y :: rest => x ++ Char.ofNat 32 :: joinSpace (y :: rest)

/-- Function `extract_text_from_record(record, max_items, include_fields,
exclude_fields)` (lines 128-138). -/
def extract_text_from_record (record : Json) (maxItems : Nat)
    (includeFields : Option (List (List Char))) (excludeFields : List (List Char)) :
    List Char :=
  match record with
  | .obj fields =>
    joinSpace (flatten_strings (.obj (filterRecordFields fields includeFields excludeFields)) maxItems)
  | other => joinSpace (flatten_strings other maxItems)

/-- Function `filter_record_for_output(record, include_fields, exclude_fields)`
(lines 156-163): non-mapping records pass through unchanged. -/
def filter_record_for_output (record : Json)
    (includeFields : Option (List (List Char))) (excludeFields : List (List Char)) : Json :=
  match record with
  | .obj fields => .obj (filterRecordFields fields includeFields excludeFields)
  | other => other

/-! Record source readers (lines 70-88 and 216-225).  File contents are
modelled as the list of physical lines (each a `List Char`, no trailing
newline; `errors="replace"` decoding means reading readable files never
fails).  `json.loads` on one line and `json.load` on a whole file are
external library calls, modelled as parse oracles passed in as functions
returning `Except` (error message or value). -/

abbrev LineParse := List Char → Except (List Char) Json
abbrev FileParse := List (List Char) → Except (List Char) Json

/-- Reader `iter_jsonl_records` (lines 70-79): enumerate lines from 1, skip blank
lines, parse each non-blank line; a parse failure yields the synthetic
record built at line 79. -/
def iterJsonlAux (jline : LineParse) : List (List Char) → Nat → List (Nat × Json)
  | [], _ => []
  | l :: rest, n =>
    let s := stripA l
    if s = [] then iterJsonlAux jline rest (n + 1)
    else
      match jline s with
      | .ok v => (n, v) :: iterJsonlAux jline rest (n + 1)
      | .error e =>
        (n, .obj [(cl "text", .str s), (cl "_parse_error", .str (cl "invalid_json: " ++ e))]) ::
          iterJsonlAux jline rest (n + 1)

def iter_jsonl_records (jline : LineParse) (lines : List (List Char)) : List (Nat × Json) :=
  iterJsonlAux jline lines 1

/-- Reader `iter_txt_records` (lines 82-88): one text record per line
whose stripped length meets the minimum. -/
def iterTxtAux (minLen : Nat) : List (List Char) → Nat → List (Nat × Json)
  | [], _ => []
  | l :: rest, n =>
    let text := stripA l
    if text.length < minLen then iterTxtAux minLen rest (n + 1)
    else (n, .obj [(cl "text", .str text)]) :: iterTxtAux minLen rest (n + 1)

def iter_txt_records (minLen : Nat) (lines : List (List Char)) : List (Nat × Json) :=
  iterTxtAux minLen lines 1

/-! The extraction driver (`main`, lines 228-419), over an abstract
filesystem.  A `FileEntry` is a path together with whether `open()`
succeeds on it and its decoded lines.  The input root is a single regular
file or a directory tree (flattened in `os.walk` order). -/

structure FileEntry where
  path : List Char
  readable : Bool
  lines : List (List Char)

inductive InputRoot where
  | file (f : FileEntry)
  | dir (files : List FileEntry)

/-- Python `os.path.splitext(...)[1]` on a basename: the suffix from the last
dot, unless every character before that dot is itself a dot (leading dots
carry no extension).  `seen` records whether a non-dot character has been
passed; `best` is the extension candidate from the last dot seen so far. -/
def splitextExtAux : List Char → Bool → List Char → List Char
  | [], _, best => best
  | c :: rest, seen, best =>
    if c = Char.ofNat 46 then
      if seen then splitextExtAux rest seen (c :: rest) else splitextExtAux rest seen best
    else splitextExtAux rest true best

def splitextExt (base : List Char) : List Char := splitextExtAux base false []

/-- The basename of a path (the part after the last `/`). -/
def basenameOf (p : List Char) : List Char :=
  (p.reverse.takeWhile (fun c => c ≠ Char.ofNat 47)).reverse

/-- The lowercased extension of a path, as computed at lines 65 and 344
(`os.path.splitext(...)[1].lower()`). -/
def extOf (p : List Char) : List Char := (splitextExt (basenameOf p)).map lowerA

/-- Function `iter_files(root, allowed_exts)` (lines 59-67): a single regular file
is yielded unconditionally; directory traversal filters filenames by
lowercased extension. -/
def iter_files (root : InputRoot) (allowedExts : List (List Char)) : List FileEntry :=
  match root with
  | .file f => [f]
  | .dir files => files.filter (fun f => allowedExts.contains (extOf f.path))

/-- Helper `_load_json_file(path, encoding)` (lines 216-225): eager whole-file
read and parse; `IOError` on open and `ValueError` on a malformed document
both surface as (caught) errors.  The whole file body is handed to the
`json.load` oracle. -/
def loadJsonFile (jfile : FileParse) (f : FileEntry) : Except Unit (List (Nat × Json)) :=
  if f.readable then
    match jfile f.lines with
    | .ok v => .ok [(1, v)]
    | .error _ => .error ()
  else .error ()

/-- What happens at lines 346-357 for one discovered file.  Crucial
laziness detail of the source: `iter_jsonl_records` and
`iter_txt_records` are generators, so constructing them inside the
`try` performs no I/O; an unreadable `.jsonl`/`.txt` file raises only
when the record `for` loop first advances the generator, outside the
per-file `try/except` — modelled as `fatalDuringIter`.  `_load_json_file`
is eager, so its failures are caught (`skipWarn`).  An extension other
than the three handled ones hits the `else: continue` (`skipSilent`). -/
inductive FileOutcome where
  | records (rs : List (Nat × Json))
  | skipWarn
  | skipSilent
  | fatalDuringIter

def fileOutcome (jline : LineParse) (jfile : FileParse) (minLineLength : Nat)
    (f : FileEntry) : FileOutcome :=
  let ext := extOf f.path
  if ext = cl ".jsonl" then
    if f.readable then .records (iter_jsonl_records jline f.lines) else .fatalDuringIter
  else if ext = cl ".txt" then
    if f.readable then .records (iter_txt_records minLineLength f.lines) else .fatalDuringIter
  else if ext = cl ".json" then
    match loadJsonFile jfile f with
    | .ok rs => .records rs
    | .error _ => .skipWarn
  else .skipSilent

/-- The extraction metadata dict built at lines 375-379. -/
def metaObj (path : List Char) (lineNo : Nat) (hits : List (List Char)) : Json :=
  .obj [(cl "source_path", .str path),
        (cl "source_line", .num (Int.ofNat lineNo)),
        (cl "matched_keywords", .arr (hits.map .str))]

/-- Python dict assignment `d[k] = v`: replace the value in place when the
key is present, otherwise append the new pair. -/
def setKey : List (List Char × Json) → List Char → Json → List (List Char × Json)
  | [], k, v => [(k, v)]
  | (k2, v2) :: rest, k, v =>
    if k2 = k then (k2, v) :: rest else (k2, v2) :: setKey rest k v

/-- The output record built at lines 380-389: the field-filtered record
with `_extract_meta` injected, or a `{"raw": ..., "_extract_meta": ...}`
wrapper for non-mapping records. -/
def buildOutputRecord (record : Json) (includeFields : Option (List (List Char)))
    (excludeFields : List (List Char)) (path : List Char) (lineNo : Nat)
    (hits : List (List Char)) : Json :=
  match filter_record_for_output record includeFields excludeFields with
  | .obj fs => .obj (setKey fs (cl "_extract_meta") (metaObj path lineNo hits))
  | other => .obj [(cl "raw", other), (cl "_extract_meta", metaObj path lineNo hits)]

/-- The scan configuration of `main` relevant to the loop (argparse
validation — non-negative `--max-records`, non-empty extension and
keyword lists — has already succeeded). -/
structure Config where
  minLineLength : Nat
  maxFlattenItems : Nat
  includeFields : Option (List (List Char))
  excludeFields : List (List Char)
  maxHitsPerRecord : Nat
  maxRecords : Nat
  dryRun : Bool
  keywords : List (List Char)
  allowedExts : List (List Char)

/-- The mutable state of the scanning loop of `main`.  `outLines` stands for
the lines written to the output file (`out_f` is `None` on a dry run, so
nothing accumulates).  `processed` is an observation recording which
records passed the ceiling check and reached the matching step at line
364 — `(path, line number)` in order.  `warnings` counts the per-file
warnings printed at line 356. -/
structure RunState where
  scannedFiles : Nat
  totalRecords : Nat
  matchedRecords : Nat
  outLines : List Json
  processed : List (List Char × Nat)
  warnings : Nat

def initState : RunState :=
  { scannedFiles := 0, totalRecords := 0, matchedRecords := 0,
    outLines := [], processed := [], warnings := 0 }

/-- The inner record loop (lines 359-395) over the records of one file:
increment the scan counter, break once the ceiling is exceeded, otherwise
flatten, match, and emit on a hit. -/
def processRecords (cfg : Config) (m : Matcher) (path : List Char) :
    List (Nat × Json) → RunState → RunState
  | [], st => st
  | (lineNo, record) :: rest, st =>
    let st := { st with totalRecords := st.totalRecords + 1 }
    if cfg.maxRecords ≠ 0 && decide (cfg.maxRecords < st.totalRecords) then st
    else
      let st := { st with processed := st.processed ++ [(path, lineNo)] }
      let text := extract_text_from_record record cfg.maxFlattenItems
        cfg.includeFields cfg.excludeFields
      let hits := detect_matches m text cfg.maxHitsPerRecord
      if hits = [] then processRecords cfg m path rest st
      else
        let st := { st with matchedRecords := st.matchedRecords + 1 }
        let outRec := buildOutputRecord record cfg.includeFields cfg.excludeFields
          path lineNo hits
        let st := if cfg.dryRun then st
          else { st with outLines := st.outLines ++ [outRec] }
        processRecords cfg m path rest st

/-- The outer file loop (lines 342-398).  Returns the final state and
whether a lazily-raised read error escaped to the top-level handler
(`True` aborts the run).  After each file the ceiling is re-checked
(line 397). -/
def processFiles (cfg : Config) (m : Matcher) (jline : LineParse) (jfile : FileParse) :
    List FileEntry → RunState → RunState × Bool
  | [], st => (st, false)
  | f :: rest, st =>
    let st := { st with scannedFiles := st.scannedFiles + 1 }
    match fileOutcome jline jfile cfg.minLineLength f with
    | .skipWarn => processFiles cfg m jline jfile rest { st with warnings := st.warnings + 1 }
    | .skipSilent => processFiles cfg m jline jfile rest st
    | .fatalDuringIter => (st, true)
    | .records rs =>
      let st := processRecords cfg m f.path rs st
      if cfg.maxRecords ≠ 0 && decide (cfg.maxRecords ≤ st.totalRecords) then (st, false)
      else processFiles cfg m jline jfile rest st

/-- The observable outcome of a run of `main`. -/
structure RunResult where
  exitCode : Nat
  /-- The `Scanned files / Total records / Matched records` summary, which
  is printed only when the scan loop finishes without an uncaught
  exception: `(scanned_files, total_records, matched_records)`. -/
  reportedCounts : Option (Nat × Nat × Nat)
  /-- The contents of the output file, `none` when `--dry-run` left
  `out_f = None` and no file was created. -/
  output : Option (List Json)
  scannedFiles : Nat
  totalRecords : Nat
  matchedRecords : Nat
  processed : List (List Char × Nat)
  warnings : Nat

/-- Function `main` (lines 228-419) after successful argument validation: build the
matcher, scan, and report.  A config whose keywords all clean away exits
before scanning (line 320); that guard is kept to mirror the source. -/
def runMain (cfg : Config) (jline : LineParse) (jfile : FileParse)
    (root : InputRoot) : RunResult :=
  let bm := build_matcher cfg.keywords
  if bm.2 = [] then
    { exitCode := 2, reportedCounts := none, output := none, scannedFiles := 0,
      totalRecords := 0, matchedRecords := 0, processed := [], warnings := 0 }
  else
    let files := iter_files root cfg.allowedExts
    let res := processFiles cfg bm.1 jline jfile files initState
    let st := res.1
    let fatal := res.2
    { exitCode := if fatal then 1 else 0
      reportedCounts := if fatal then none
        else some (st.scannedFiles, st.totalRecords, st.matchedRecords)
      output := if cfg.dryRun then none else some st.outLines
      scannedFiles := st.scannedFiles
      totalRecords := st.totalRecords
      matchedRecords := st.matchedRecords
      processed := st.processed
      warnings := st.warnings }

/-! Stage two: `derive_knowledge` (convert_mcq_to_eval.py, lines 6-31). -/

/-- The `sp.replace("\\", "/")` normalisation. -/
def replaceBS (l : List Char) : List Char :=
  l.map (fun c => if c = Char.ofNat 92 then Char.ofNat 47 else c)

/-- Python `str.split(sep)` for a one-character separator: keeps empty
pieces, and splitting the empty string gives one empty piece. -/
def splitCharAux (sep : Char) : List Char → List Char → List (List Char)
  | [], cur => [cur.reverse]
  | c :: rest, cur =>
    if c = sep then cur.reverse :: splitCharAux sep rest []
    else splitCharAux sep rest (c :: cur)

def splitChar (sep : Char) (l : List Char) : List (List Char) := splitCharAux sep l []

/-- Python `s.split(".")[0]`: everything before the first dot. -/
def takeBeforeDot (l : List Char) : List Char :=
  l.takeWhile (fun c => c ≠ Char.ofNat 46)

/-- Python `"/".join(parts)`. -/
def joinSlash : List (List Char) → List Char
  | [] => []
  | [x] => x
  | x :: y :: rest => x ++ Char.ofNat 47 :: joinSlash (y :: rest)

/-- Python `list.index(x)`: the first index holding `x` (meaningful only
when `x` is present, as guarded in the source). -/
def firstIdx : List (List Char) → List Char → Nat
  | [], _ => 0
  | x :: rest, t => if x = t then 0 else firstIdx rest t + 1

/-- Lines 19-31 of `derive_knowledge`, applied to the split path parts:
try the `questions/<REGION>/<SPLIT>` pattern (first occurrence of the
`questions` segment), then fall back to the joined last two parts cut at
the first dot, then the first-dot-cut single part. -/
def deriveFromParts (parts : List (List Char)) : List Char :=
  let viaQuestions : Option (List Char) :=
    if parts.contains (cl "questions") then
      let i := firstIdx parts (cl "questions")
      if i + 2 < parts.length then
        some (parts.getD (i + 1) [] ++ Char.ofNat 47 :: takeBeforeDot (parts.getD (i + 2) []))
      else none
    else none
  match viaQuestions with
  | some r => r
  | none =>
    if 2 ≤ parts.length then takeBeforeDot (joinSlash (parts.drop (parts.length - 2)))
    else
      match parts with
      | p :: _ => takeBeforeDot p
      | [] => cl "unknown"

/-- The path-derivation core of `derive_knowledge` (lines 12-31), applied
to the `source_path` string. -/
def derive_knowledge_path (sp : List Char) : List Char :=
  if sp = [] then cl "unknown"
  else deriveFromParts (splitChar (Char.ofNat 47) (replaceBS sp))

/-- Function `derive_knowledge(meta)` (lines 6-31): `meta` is the `_extract_meta`
dict (or `None`); the `meta or` fallback plus `.get` yields the empty
string when the meta or the key is absent.  The model covers string-valued
(or absent) `source_path`; a truthy non-string value would raise in the
source and is outside the model. -/
def derive_knowledge (meta : Option (List (List Char × Json))) : List Char :=
  let sp := match meta with
    | none => []
    | some fs =>
      match lookupKey fs (cl "source_path") with
      | some (.str s) => s
      | _ => []
  derive_knowledge_path sp

example : derive_knowledge_path (cl "data/raw/data_clean/questions/US/dev.jsonl") = cl "US/dev" := by decide
example : derive_knowledge_path (cl "data/raw/tw.jsonl") = cl "raw/tw" := by decide
example : derive_knowledge_path (cl "data.v2/dev.jsonl") = cl "data" := by decide
example : derive_knowledge_path [] = cl "unknown" := by decide

/-! Concrete parse oracles for witnesses and counterexamples: a
restriction of `json.loads` to JSON string literals without escape
sequences. -/

/-- Parses `"..."` (a JSON string literal with no escapes and no inner
quote) to a `Json.str`; everything else errors like the decoder does. -/
def parseQuoted : LineParse := fun s =>
  if 2 ≤ s.length && s.head? == some (Char.ofNat 34) && s.getLast? == some (Char.ofNat 34)
      && ((s.drop 1).dropLast.all (fun c => c ≠ Char.ofNat 34))
  then .ok (.str ((s.drop 1).dropLast))
  else .error (cl "Expecting value: line 1 column 1 (char 0)")

/-- Whole-document oracle: a single-line file parses like its line. -/
def parseQuotedFile : FileParse := fun lines =>
  match lines with
  | [l] => parseQuoted l
  | _ => .error (cl "Expecting value: line 1 column 1 (char 0)")

/-! Concrete fixtures used by witnesses and counterexamples. -/

/-- A default-like configuration (keywords overridden to `MI`). -/
def cfgBase : Config :=
  { minLineLength := 20, maxFlattenItems := 200, includeFields := none,
    excludeFields := [cl "meta_info"], maxHitsPerRecord := 20, maxRecords := 0,
    dryRun := false, keywords := [cl "MI"],
    allowedExts := [cl ".jsonl", cl ".json", cl ".txt"] }

/-- A JSONL line holding the JSON string literal `"MI"`. -/
def lineMI : List Char := cl "\"MI\""

/-- A readable ten-record `.jsonl` file whose every record matches. -/
def fileTen : FileEntry :=
  { path := cl "data/raw/a.jsonl", readable := true, lines := List.replicate 10 lineMI }

example : (runMain { cfgBase with maxRecords := 5 } parseQuoted parseQuotedFile
  (.dir [fileTen])).totalRecords = 6 := by decide
example : (runMain cfgBase parseQuoted parseQuotedFile
  (.dir [fileTen])).matchedRecords = 10 := by decide

/-- An unreadable `.jsonl` file (e.g. permission-denied): `open()` raises
`OSError`, but only when the lazy generator is first advanced. -/
def fileBadReadJsonl : FileEntry :=
  { path := cl "data/raw/denied.jsonl", readable := false, lines := [] }

/-- An unreadable whole-JSON-document file: `_load_json_file` raises
eagerly inside the per-file `try`. -/
def fileBadReadJsonDoc : FileEntry :=
  { path := cl "data/raw/denied.json", readable := false, lines := [] }

/-- A readable one-record `.jsonl` file placed after the failing one. -/
def fileAfter : FileEntry :=
  { path := cl "data/raw/after.jsonl", readable := true, lines := [lineMI] }

/-- A readable single file with an extension outside the handled three. -/
def fileMd : FileEntry :=
  { path := cl "data/raw/notes.md", readable := true, lines := [lineMI] }

/-- A non-blank `.jsonl` line with surrounding whitespace that is not
valid JSON. -/
def lineBad : List Char := cl "  notjson  "

/-- A readable `.jsonl` file whose second line is malformed. -/
def fileWithBad : FileEntry :=
  { path := cl "data/raw/mixed.jsonl", readable := true, lines := [lineMI, lineBad] }

/-- Returns `True` exactly on the outcome that escapes the per-file handler. -/
def isFatalOutcome : FileOutcome → Bool
  | .fatalDuringIter => true
  | _ => false

/-- The number of records a file contributes to a full scan (zero for
skipped files). -/
def fileRecordCount (jline : LineParse) (jfile : FileParse) (minLen : Nat)
    (f : FileEntry) : Nat :=
  match fileOutcome jline jfile minLen f with
  | .records rs => rs.length
  | _ => 0

/-- Total records available across a file list. -/
def availRecords (jline : LineParse) (jfile : FileParse) (minLen : Nat)
    (files : List FileEntry) : Nat :=
  (files.map (fileRecordCount jline jfile minLen)).sum

/-- No file in the list raises lazily during iteration. -/
def noFatal (jline : LineParse) (jfile : FileParse) (minLen : Nat)
    (files : List FileEntry) : Bool :=
  files.all (fun f => !isFatalOutcome (fileOutcome jline jfile minLen f))

/-- Everything in the scan state except the written output lines. -/
def stateSansOut (st : RunState) :
    Nat × Nat × Nat × List (List Char × Nat) × Nat :=
  (st.scannedFiles, st.totalRecords, st.matchedRecords, st.processed, st.warnings)

/-- A string that is already stripped: no whitespace at either end. -/
def isStrippedB (l : List Char) : Bool :=
  (match l.head? with | some c => !isWsA c | none => true) &&
  (match l.getLast? with | some c => !isWsA c | none => true)

/-- The class of short/acronym-like keywords from the claim: alphanumeric-only
and (at most three characters, or fully uppercase with at least one
letter). -/
def shortAcronymKw (kw : List Char) : Bool :=
  kw ≠ [] && kw.all isAlnumA &&
    (decide (kw.length ≤ 3) || (kw.any isAlphaA && kw.all (fun c => !isLowerA c)))

/-- A path segment free of separators (`/` and `\`), so that splitting
the joined path recovers the segments. -/
def goodSeg (s : List Char) : Bool :=
  s.all (fun c => c ≠ Char.ofNat 47 && c ≠ Char.ofNat 92)

/-- A nested record with six fragments, for evaluating the flattener. -/
def demoNested : Json :=
  .obj [(cl "q", .str (cl " chest pain ")),
        (cl "opts", .arr [.str (cl "A"), .str (cl "B"), .str (cl "C")])]

/-! Properties of the string primitives. -/

theorem dropWhile_head_false (p : Char → Bool) :
    ∀ (l : List Char) (c : Char) (t : List Char), l.dropWhile p = c :: t → p c = false := by
  intro l
  induction l with
  | nil => intro c t h; simp [List.dropWhile] at h
  | cons a as ih =>
    intro c t h
    rw [List.dropWhile_cons] at h
    by_cases hp : p a = true
    · rw [if_pos hp] at h; exact ih c t h
    · rw [if_neg hp] at h
      injection h with h1 h2
      subst h1
      exact Bool.eq_false_iff.mpr hp

theorem dropWhile_eq_self_of_head (p : Char → Bool) (l : List Char)
    (h : ∀ c, l.head? = some c → p c = false) : l.dropWhile p = l := by
  cases l with
  | nil => rfl
  | cons a as =>
    rw [List.dropWhile_cons, if_neg]
    rw [h a rfl]
    simp

theorem stripLeftA_head_false (l : List Char) (c : Char) (t : List Char)
    (h : stripLeftA l = c :: t) : isWsA c = false :=
  dropWhile_head_false isWsA l c t h

theorem isStrippedB_stripA (l : List Char) : isStrippedB (stripA l) = true := by
  cases h : stripA l with
  | nil => rfl
  | cons c t =>
    have hhead : isWsA c = false := by
      have h' : stripLeftA ((stripLeftA l.reverse).reverse) = c :: t := h
      exact stripLeftA_head_false _ _ _ h'
    have hx : stripLeftA l.reverse ≠ [] := by
      intro hz
      have hzz : stripA l = [] := by
        unfold stripA
        rw [hz]
        rfl
      rw [h] at hzz
      exact absurd hzz (by simp)
    obtain ⟨c', t', hct⟩ : ∃ c' t', stripLeftA l.reverse = c' :: t' := by
      cases hcc : stripLeftA l.reverse with
      | nil => exact absurd hcc hx
      | cons a b => exact ⟨a, b, rfl⟩
    have hc' : isWsA c' = false := stripLeftA_head_false _ _ _ hct
    have hm : ((stripLeftA l.reverse).reverse).takeWhile isWsA ++ (c :: t) =
        (stripLeftA l.reverse).reverse := by
      conv_rhs => rw [← List.takeWhile_append_dropWhile isWsA ((stripLeftA l.reverse).reverse)]
      rw [show List.dropWhile isWsA ((stripLeftA l.reverse).reverse) = c :: t from h]
    have h1 : ((stripLeftA l.reverse).reverse).getLast? = (c :: t).getLast? := by
      rw [← hm, List.getLast?_append,
        List.getLast?_eq_getLast_of_ne_nil (l := c :: t) (by simp)]
      rfl
    have h2 : ((stripLeftA l.reverse).reverse).getLast? = some c' := by
      rw [List.getLast?_reverse, hct]
      rfl
    have hlast : (c :: t).getLast? = some c' := by rw [← h1, h2]
    unfold isStrippedB
    rw [hlast]
    simp [hhead, hc']

theorem stripA_eq_self (l : List Char) (h : isStrippedB l = true) : stripA l = l := by
  have hHead : ∀ c, l.head? = some c → isWsA c = false := by
    intro c hc
    unfold isStrippedB at h
    rw [hc] at h
    rw [Bool.and_eq_true] at h
    have := h.1
    simpa using this
  have hLast : ∀ c, l.getLast? = some c → isWsA c = false := by
    intro c hc
    unfold isStrippedB at h
    rw [hc] at h
    rw [Bool.and_eq_true] at h
    have := h.2
    simpa using this
  unfold stripA
  have h1 : stripLeftA l.reverse = l.reverse := by
    apply dropWhile_eq_self_of_head
    intro c hc
    rw [List.head?_reverse] at hc
    exact hLast c hc
  rw [h1, List.reverse_reverse]
  apply dropWhile_eq_self_of_head
  exact hHead

theorem stripA_idem (l : List Char) : stripA (stripA l) = stripA l :=
  stripA_eq_self (stripA l) (isStrippedB_stripA l)

theorem isStrippedB_of_forall (l : List Char) (h : ∀ c ∈ l, isWsA c = false) :
    isStrippedB l = true := by
  cases l with
  | nil => rfl
  | cons a b =>
    unfold isStrippedB
    rw [List.getLast?_eq_getLast_of_ne_nil (l := a :: b) (by simp)]
    have h1 : isWsA a = false := h a (by simp)
    have h2 : isWsA ((a :: b).getLast (by simp)) = false := h _ (List.getLast_mem _)
    simp [h1, h2]

theorem isWsA_digit_false (k : Nat) (hk : k < 10) :
    isWsA (Char.ofNat (48 + k)) = false := by
  interval_cases k <;> decide

theorem natCharsAux_nonws : ∀ (fuel n : Nat) (acc : List Char),
    (∀ c ∈ acc, isWsA c = false) → ∀ c ∈ natCharsAux fuel n acc, isWsA c = false := by
  intro fuel
  induction fuel with
  | zero => intro n acc hacc c hc; exact hacc c hc
  | succ fuel ih =>
    intro n acc hacc c hc
    have hacc' : ∀ c ∈ Char.ofNat (48 + n % 10) :: acc, isWsA c = false := by
      intro c hc
      rcases List.mem_cons.mp hc with h | h
      · subst h; exact isWsA_digit_false (n % 10) (Nat.mod_lt n (by omega))
      · exact hacc c h
    unfold natCharsAux at hc
    by_cases hn : n < 10
    · rw [if_pos hn] at hc; exact hacc' c hc
    · rw [if_neg hn] at hc; exact ih (n / 10) _ hacc' c hc

theorem natCharsAux_ne_nil : ∀ (fuel n : Nat) (acc : List Char),
    fuel ≠ 0 ∨ acc ≠ [] → natCharsAux fuel n acc ≠ [] := by
  intro fuel
  induction fuel with
  | zero =>
    intro n acc h
    rcases h with h | h
    · exact absurd rfl h
    · exact h
  | succ fuel ih =>
    intro n acc h
    unfold natCharsAux
    by_cases hn : n < 10
    · rw [if_pos hn]; simp
    · rw [if_neg hn]
      exact ih (n / 10) _ (Or.inr (by simp))

theorem natChars_nonws (n : Nat) : ∀ c ∈ natChars n, isWsA c = false :=
  natCharsAux_nonws (n + 1) n [] (by simp)

theorem natChars_ne_nil (n : Nat) : natChars n ≠ [] :=
  natCharsAux_ne_nil (n + 1) n [] (Or.inl (by omega))

theorem intChars_nonws (n : Int) : ∀ c ∈ intChars n, isWsA c = false := by
  intro c hc
  unfold intChars at hc
  by_cases hn : n < 0
  · rw [if_pos hn] at hc
    rcases List.mem_cons.mp hc with h | h
    · subst h; decide
    · exact natChars_nonws _ c h
  · rw [if_neg hn] at hc
    exact natChars_nonws _ c hc

theorem intChars_ne_nil (n : Int) : intChars n ≠ [] := by
  unfold intChars
  by_cases hn : n < 0
  · rw [if_pos hn]; simp
  · rw [if_neg hn]; exact natChars_ne_nil _

theorem intChars_stripped (n : Int) : isStrippedB (intChars n) = true :=
  isStrippedB_of_forall _ (intChars_nonws n)

theorem boolChars_frag (b : Bool) : boolChars b ≠ [] ∧ isStrippedB (boolChars b) = true := by
  cases b <;> exact ⟨by decide, by decide⟩

/-- Every fragment of the unbounded flattening is non-empty and already
stripped. -/
theorem flattenAll_frags : ∀ v : Json, ∀ s ∈ flattenAll v, s ≠ [] ∧ isStrippedB s = true :=
  flattenAll.induct
    (fun v => ∀ s ∈ flattenAll v, s ≠ [] ∧ isStrippedB s = true)
    (fun l => ∀ s ∈ flattenAllList l, s ≠ [] ∧ isStrippedB s = true)
    (fun fs => ∀ s ∈ flattenAllFields fs, s ≠ [] ∧ isStrippedB s = true)
    (by intro s hs; simp [flattenAll] at hs)
    (by intro s hse t ht; simp [flattenAll, hse] at ht)
    (by
      intro s hse t ht
      simp only [flattenAll, if_neg hse, List.mem_singleton] at ht
      subst ht
      exact ⟨hse, isStrippedB_stripA s⟩)
    (by
      intro n s hs
      simp only [flattenAll, List.mem_singleton] at hs
      subst hs
      exact ⟨intChars_ne_nil n, intChars_stripped n⟩)
    (by
      intro b s hs
      simp only [flattenAll, List.mem_singleton] at hs
      subst hs
      exact boolChars_frag b)
    (by intro fields ih s hs; simp only [flattenAll] at hs; exact ih s hs)
    (by intro elems ih s hs; simp only [flattenAll] at hs; exact ih s hs)
    (by intro s hs; simp [flattenAllFields] at hs)
    (by
      intro k v rest ihv ihrest s hs
      simp only [flattenAllFields, List.mem_append] at hs
      rcases hs with (hs | hs) | hs
      · by_cases hk : stripA k = []
        · rw [if_pos hk] at hs; simp at hs
        · rw [if_neg hk] at hs
          rcases List.mem_singleton.mp hs with rfl
          exact ⟨hk, isStrippedB_stripA k⟩
      · exact ihv s hs
      · exact ihrest s hs)
    (by intro s hs; simp [flattenAllList] at hs)
    (by
      intro v rest ihv ihrest s hs
      simp only [flattenAllList, List.mem_append] at hs
      rcases hs with hs | hs
      · exact ihv s hs
      · exact ihrest s hs)

theorem take_prefix_take {α : Type} (A F : List α) (mx : Nat) :
    (A.take mx ++ F).take mx = (A ++ F).take mx := by
  rw [List.take_append_eq_append_take, List.take_append_eq_append_take,
    List.take_take, Nat.min_self]
  congr 1
  rw [List.length_take]
  congr 1
  omega

/-- The budgeted visit equals the truncation of the unbounded flattening:
`visit` appends exactly the first `mx - out.length` fragments. -/
theorem visitJ_eq_take (mx : Nat) : ∀ v : Json, ∀ out : List (List Char),
    out.length ≤ mx → visitJ mx v out = (out ++ flattenAll v).take mx :=
  flattenAll.induct
    (fun v => ∀ out : List (List Char),
      out.length ≤ mx → visitJ mx v out = (out ++ flattenAll v).take mx)
    (fun l => ∀ out : List (List Char),
      out.length ≤ mx → visitList mx l out = (out ++ flattenAllList l).take mx)
    (fun fs => ∀ out : List (List Char),
      out.length ≤ mx → visitFields mx fs out = (out ++ flattenAllFields fs).take
        mx)
    (by
      intro out h
      simp only [visitJ, flattenAll, List.append_nil]
      rw [List.take_of_length_le h]
      split <;> rfl)
    (by
      intro s hse out h
      simp only [visitJ, flattenAll, if_pos hse, List.append_nil]
      rw [List.take_of_length_le h]
      split <;> rfl)
    (by
      intro s hse out h
      simp only [visitJ, flattenAll, if_neg hse]
      by_cases hfull : mx ≤ out.length
      · rw [if_pos hfull]
        have : out.length = mx := Nat.le_antisymm h hfull
        rw [List.take_append_eq_append_take, List.take_of_length_le h]
        rw [this, Nat.sub_self]
        simp
      · rw [if_neg hfull]
        rw [List.take_of_length_le]
        simp
        omega)
    (by
      intro n out h
      simp only [visitJ, flattenAll]
      by_cases hfull : mx ≤ out.length
      · rw [if_pos hfull]
        have : out.length = mx := Nat.le_antisymm h hfull
        rw [List.take_append_eq_append_take, List.take_of_length_le h]
        rw [this, Nat.sub_self]
        simp
      · rw [if_neg hfull]
        rw [List.take_of_length_le]
        simp
        omega)
    (by
      intro b out h
      simp only [visitJ, flattenAll]
      by_cases hfull : mx ≤ out.length
      · rw [if_pos hfull]
        have : out.length = mx := Nat.le_antisymm h hfull
        rw [List.take_append_eq_append_take, List.take_of_length_le h]
        rw [this, Nat.sub_self]
        simp
      · rw [if_neg hfull]
        rw [List.take_of_length_le]
        simp
        omega)
    (by
      intro fields ih out h
      simp only [visitJ, flattenAll]
      by_cases hfull : mx ≤ out.length
      · rw [if_pos hfull]
        have : out.length = mx := Nat.le_antisymm h hfull
        rw [List.take_append_eq_append_take, List.take_of_length_le h]
        rw [this, Nat.sub_self]
        simp
      · rw [if_neg hfull]
        exact ih out h)
    (by
      intro elems ih out h
      simp only [visitJ, flattenAll]
      by_cases hfull : mx ≤ out.length
      · rw [if_pos hfull]
        have : out.length = mx := Nat.le_antisymm h hfull
        rw [List.take_append_eq_append_take, List.take_of_length_le h]
        rw [this, Nat.sub_self]
        simp
      · rw [if_neg hfull]
        exact ih out h)
    (by
      intro out h
      simp only [visitFields, flattenAllFields, List.append_nil]
      rw [List.take_of_length_le h])
    (by
      intro k v rest ihv ihrest out h
      simp only [visitFields, flattenAllFields]
      by_cases hfull : mx ≤ out.length
      · rw [if_pos hfull]
        have : out.length = mx := Nat.le_antisymm h hfull
        rw [List.take_append_eq_append_take, List.take_of_length_le h]
        rw [this, Nat.sub_self]
        simp
      · rw [if_neg hfull]
        have hlt : out.length < mx := Nat.lt_of_not_le hfull
        by_cases hk : stripA k = []
        · simp only [if_pos hk]
          rw [ihv out h]
          have h2 : ((out ++ flattenAll v).take mx).length ≤ mx := by
            rw [List.length_take]; omega
          rw [ihrest _ h2, take_prefix_take, List.nil_append, List.append_assoc]
        · simp only [if_neg hk]
          have h1 : (out ++ [stripA k]).length ≤ mx := by
            rw [List.length_append]; simp; omega
          rw [ihv _ h1]
          have h2 : (((out ++ [stripA k]) ++ flattenAll v).take mx).length ≤ mx := by
            rw [List.length_take]; omega
          rw [ihrest _ h2, take_prefix_take]
          simp [List.append_assoc])
    (by
      intro out h
      simp only [visitList, flattenAllList, List.append_nil]
      rw [List.take_of_length_le h])
    (by
      intro v rest ihv ihrest out h
      simp only [visitList, flattenAllList]
      by_cases hfull : mx ≤ out.length
      · rw [if_pos hfull]
        have : out.length = mx := Nat.le_antisymm h hfull
        rw [List.take_append_eq_append_take, List.take_of_length_le h]
        rw [this, Nat.sub_self]
        simp
      · rw [if_neg hfull]
        rw [ihv out h]
        have h2 : ((out ++ flattenAll v).take mx).length ≤ mx := by
          rw [List.length_take]; omega
        rw [ihrest _ h2, take_prefix_take, List.append_assoc])

/-- C6: for every record value and positive maximum fragment count,
`flatten_strings` returns the depth-first fragment sequence of the record
truncated at the maximum — so its entries are non-empty, already-trimmed
fragments in depth-first order, and when the record holds more fragments
than the maximum the result has exactly the maximum number of them. -/
theorem C6_flatten_bounded_depth_first (v : Json) (mx : Nat) (hmx : 0 < mx) :
    flatten_strings v mx = (flattenAll v).take mx ∧
    (∀ s ∈ flatten_strings v mx, s ≠ [] ∧ stripA s = s) ∧
    (mx < (flattenAll v).length → (flatten_strings v mx).length = mx) := by
  have h1 : flatten_strings v mx = (flattenAll v).take mx := by
    unfold flatten_strings
    rw [visitJ_eq_take mx v [] (by simp), List.nil_append, List.take_take,
      Nat.min_self]
  refine ⟨h1, ?_, ?_⟩
  · intro s hs
    rw [h1] at hs
    have hmem : s ∈ flattenAll v := List.take_subset mx _ hs
    obtain ⟨hne, hst⟩ := flattenAll_frags v s hmem
    exact ⟨hne, stripA_eq_self s hst⟩
  · intro hlen
    rw [h1, List.length_take]
    exact Nat.min_eq_left (Nat.le_of_lt hlen)

/-- C6 witness: the six-fragment nested demo record truncated at two. -/
theorem C6_witness :
    flatten_strings demoNested 2 = (flattenAll demoNested).take 2 ∧
    (flatten_strings demoNested 2).length = 2 := by
  obtain ⟨h1, h2, h3⟩ := C6_flatten_bounded_depth_first demoNested 2 (by decide)
  exact ⟨h1, h3 (by decide)⟩

/-! Properties of the keyword matcher. -/

theorem cleanKeywords_mem (kws : List (List Char)) :
    ∀ kw ∈ cleanKeywords kws, kw ≠ [] ∧ stripA kw = kw := by
  intro kw hkw
  unfold cleanKeywords at hkw
  obtain ⟨a, _, ha⟩ := List.mem_filterMap.mp hkw
  by_cases hs : stripA a = []
  · simp only [hs, if_pos] at ha
    cases ha
  · simp only [if_neg hs] at ha
    injection ha with ha
    subst ha
    exact ⟨hs, stripA_idem a⟩

theorem splitWsAux_tokens_ne_nil :
    ∀ (l cur : List Char) (t : List Char), t ∈ splitWsAux l cur → t ≠ [] := by
  intro l
  induction l with
  | nil =>
    intro cur t ht
    unfold splitWsAux at ht
    by_cases hc : cur = []
    · rw [if_pos hc] at ht; cases ht
    · rw [if_neg hc] at ht
      rcases List.mem_singleton.mp ht with rfl
      simpa using hc
  | cons c rest ih =>
    intro cur t ht
    unfold splitWsAux at ht
    by_cases hw : isWsA c = true
    · rw [if_pos hw] at ht
      by_cases hc : cur = []
      · rw [if_pos hc] at ht; exact ih [] t ht
      · rw [if_neg hc] at ht
        rcases List.mem_cons.mp ht with rfl | hmem
        · simpa using hc
        · exact ih [] t hmem
    · rw [if_neg hw] at ht
      exact ih (c :: cur) t ht

theorem splitWs_tokens_ne_nil (l : List Char) : ∀ t ∈ splitWs l, t ≠ [] :=
  fun t ht => splitWsAux_tokens_ne_nil l [] t ht

theorem matchTokensFrom_lb :
    ∀ (tokens : List (List Char)) (text : List Char) (j e : Nat),
      (∀ t ∈ tokens, t ≠ []) → tokens ≠ [] →
      matchTokensFrom tokens text j = some e → j < e := by
  intro tokens
  induction tokens with
  | nil => intro text j e _ hne _; exact absurd rfl hne
  | cons t rest ih =>
    intro text j e hts _ hm
    cases rest with
    | nil =>
      unfold matchTokensFrom at hm
      split at hm
      · injection hm with hm
        subst hm
        have : t ≠ [] := hts t (by simp)
        have : 0 < t.length := List.length_pos.mpr this
        omega
      · cases hm
    | cons t' rest' =>
      unfold matchTokensFrom at hm
      by_cases hcl : ciLeading t (List.drop j text) = true
      · rw [if_pos hcl] at hm
        dsimp only at hm
        by_cases hws : wsRunFrom text (j + t.length) = 0
        · rw [if_pos hws] at hm
          cases hm
        · rw [if_neg hws] at hm
          have h1 : j + t.length + wsRunFrom text (j + t.length) < e :=
            ih text _ e (fun x hx => hts x (List.mem_cons_of_mem t hx)) (by simp) hm
          omega
      · rw [if_neg hcl] at hm
        cases hm

theorem matchLit_pos (cs text : List Char) (i n : Nat) (hcs : cs ≠ [])
    (hm : matchLit cs text i = some n) : 1 ≤ n := by
  unfold matchLit at hm
  split at hm
  · injection hm with hm
    subst hm
    exact List.length_pos.mpr hcs
  · cases hm

theorem matchWord_pos (cs text : List Char) (i n : Nat) (hcs : cs ≠ [])
    (hm : matchWord cs text i = some n) : 1 ≤ n := by
  unfold matchWord at hm
  split at hm
  · injection hm with hm
    subst hm
    exact List.length_pos.mpr hcs
  · cases hm

theorem matchPhrase_pos (tokens : List (List Char)) (text : List Char) (i n : Nat)
    (hts : ∀ t ∈ tokens, t ≠ []) (hne : tokens ≠ [])
    (hm : matchPhrase tokens text i = some n) : 1 ≤ n := by
  unfold matchPhrase at hm
  by_cases hb : boundaryAt text i = true
  · rw [if_pos hb] at hm
    cases he : matchTokensFrom tokens text i with
    | none =>
      simp only [he] at hm
      cases hm
    | some e =>
      simp only [he] at hm
      by_cases hb2 : boundaryAt text e = true
      · rw [if_pos hb2] at hm
        injection hm with hm
        subst hm
        have : i < e := matchTokensFrom_lb tokens text i e hts hne he
        omega
      · rw [if_neg hb2] at hm
        cases hm
  · rw [if_neg hb] at hm
    cases hm

theorem buildPart_match_pos (kw text : List Char) (i n : Nat)
    (hkw : kw ≠ []) (hst : stripA kw = kw)
    (hm : matchPartAt (buildPart kw) text i = some n) : 1 ≤ n := by
  unfold buildPart at hm
  by_cases hcjk : kw.any isCJK = true
  · rw [if_pos hcjk] at hm
    exact matchLit_pos kw text i n hkw hm
  · rw [if_neg hcjk] at hm
    simp only [hst] at hm
    split at hm
    next hword => exact matchWord_pos kw text i n hkw hm
    next hword =>
      split at hm
      next hgt =>
        refine matchPhrase_pos _ text i n (splitWs_tokens_ne_nil kw) ?_ hm
        intro hz
        rw [hz] at hgt
        simp at hgt
      next hgt => exact matchLit_pos kw text i n hkw hm

theorem matchAltsAt_exists (parts : List MPart) (text : List Char) (i n : Nat)
    (hm : matchAltsAt parts text i = some n) :
    ∃ p ∈ parts, matchPartAt p text i = some n := by
  induction parts with
  | nil => cases hm
  | cons p ps ih =>
    unfold matchAltsAt at hm
    cases hp : matchPartAt p text i with
    | some k =>
      rw [hp] at hm
      injection hm with hm
      subst hm
      exact ⟨p, by simp, hp⟩
    | none =>
      rw [hp] at hm
      obtain ⟨q, hq, hqm⟩ := ih hm
      exact ⟨q, List.mem_cons_of_mem p hq, hqm⟩

/-- C5: for every raw keyword list (including empty or all-blank lists),
any match produced by the compiled matcher consumes at least one
character — the matcher never matches an empty string. -/
theorem C5_never_matches_empty (kws : List (List Char)) (text : List Char)
    (i n : Nat) (hm : matcherMatchAt (build_matcher kws).1 text i = some n) :
    1 ≤ n := by
  unfold build_matcher at hm
  by_cases hc : cleanKeywords kws = []
  · rw [if_pos hc] at hm
    cases hm
  · rw [if_neg hc] at hm
    simp only [matcherMatchAt] at hm
    obtain ⟨p, hp, hpm⟩ := matchAltsAt_exists _ text i n hm
    obtain ⟨kw, hkw, rfl⟩ := List.mem_map.mp hp
    obtain ⟨h1, h2⟩ := cleanKeywords_mem kws kw hkw
    exact buildPart_match_pos kw text i n h1 h2 hpm

/-- C5 witness: a concrete two-character match. -/
theorem C5_witness :
    matcherMatchAt (build_matcher [cl "MI"]).1 (cl "a MI b") 2 = some 2 ∧ 1 ≤ 2 :=
  ⟨by decide, C5_never_matches_empty [cl "MI"] (cl "a MI b") 2 2 (by decide)⟩

theorem isWsA_false_of_isAlnumA (c : Char) (h : isAlnumA c = true) : isWsA c = false := by
  simp only [isAlnumA, isAlphaA, isUpperA, isLowerA, isDigitA, Bool.or_eq_true,
    Bool.and_eq_true, decide_eq_true_eq] at h
  simp only [isWsA, Bool.or_eq_false_iff, decide_eq_false_iff_not]
  omega

theorem isCJK_false_of_isAlnumA (c : Char) (h : isAlnumA c = true) : isCJK c = false := by
  simp only [isAlnumA, isAlphaA, isUpperA, isLowerA, isDigitA, Bool.or_eq_true,
    Bool.and_eq_true, decide_eq_true_eq] at h
  simp only [isCJK, Bool.and_eq_false_iff, decide_eq_false_iff_not]
  omega

theorem stripA_of_all_alnum (kw : List Char) (h : kw.all isAlnumA = true) :
    stripA kw = kw :=
  stripA_eq_self _ (isStrippedB_of_forall _
    (fun c hc => isWsA_false_of_isAlnumA c (List.all_eq_true.mp h c hc)))

theorem matchAltsAt_single (p : MPart) (text : List Char) (i : Nat) :
    matchAltsAt [p] text i = matchPartAt p text i := by
  unfold matchAltsAt
  cases matchPartAt p text i <;> rfl

/-- On a keyword of the short/acronym class, `build_matcher` produces the
single word-boundary-anchored alternative. -/
theorem build_matcher_short (kw : List Char) (h : shortAcronymKw kw = true) :
    build_matcher [kw] = (.alts [.word kw], [kw]) := by
  unfold shortAcronymKw at h
  rw [Bool.and_eq_true, Bool.and_eq_true] at h
  obtain ⟨⟨h1, h2⟩, h3⟩ := h
  have hne : kw ≠ [] := of_decide_eq_true h1
  have hstrip : stripA kw = kw := stripA_of_all_alnum kw h2
  have hcjk : kw.any isCJK = false := by
    rw [List.any_eq_false]
    intro c hc
    have := isCJK_false_of_isAlnumA c (List.all_eq_true.mp h2 c hc)
    simp [this]
  have hclean : cleanKeywords [kw] = [kw] := by
    unfold cleanKeywords
    simp [hstrip, hne]
  have hpart : buildPart kw = .word kw := by
    unfold buildPart
    rw [hcjk]
    simp only [Bool.false_eq_true, if_false, hstrip]
    rw [if_pos]
    rw [Bool.and_eq_true]
    refine ⟨by rw [Bool.and_eq_true]; exact ⟨h1, h2⟩, ?_⟩
    rw [Bool.or_eq_true] at h3
    rcases h3 with h4 | h4
    · rw [Bool.or_eq_true]
      exact Or.inl h4
    · rw [Bool.and_eq_true] at h4
      obtain ⟨ha, hb⟩ := h4
      rw [Bool.or_eq_true]
      refine Or.inr ?_
      rw [Bool.and_eq_true]
      exact ⟨by unfold isupperPy; rw [Bool.and_eq_true]; exact ⟨ha, hb⟩, ha⟩
  unfold build_matcher
  rw [hclean, if_neg (by simp [hne])]
  rw [List.map_cons, List.map_nil, hpart]

/-- C4: a keyword that is alphanumeric-only and short or fully uppercase
compiles to a word-bounded alternative, so the matcher matches it (case
insensitively) exactly at positions where both ends sit on a `\b`
boundary — it matches the keyword as a standalone token and never as a
substring inside a larger word. -/
theorem C4_short_keyword_word_boundary (kw : List Char) (h : shortAcronymKw kw = true)
    (text : List Char) (i n : Nat) :
    matcherMatchAt (build_matcher [kw]).1 text i = some n ↔
      (n = kw.length ∧ ciLeading kw (text.drop i) = true ∧
       boundaryAt text i = true ∧ boundaryAt text (i + kw.length) = true) := by
  rw [build_matcher_short kw h]
  show matchAltsAt [.word kw] text i = some n ↔ _
  rw [matchAltsAt_single]
  show matchWord kw text i = some n ↔ _
  unfold matchWord
  constructor
  · intro hm
    split at hm
    next hcond =>
      injection hm with hm
      rw [Bool.and_eq_true, Bool.and_eq_true] at hcond
      exact ⟨hm.symm, hcond.1.2, hcond.1.1, hcond.2⟩
    next hcond => cases hm
  · rintro ⟨rfl, h1, h2, h3⟩
    rw [if_pos]
    rw [h1, h2, h3]
    rfl

/-- C4 witness: `MI` matches as a standalone token in `go MI now` and not
at the start of `Miami`. -/
theorem C4_witness :
    shortAcronymKw (cl "MI") = true ∧
    matcherMatchAt (build_matcher [cl "MI"]).1 (cl "go MI now") 3 = some 2 ∧
    matcherMatchAt (build_matcher [cl "MI"]).1 (cl "Miami") 0 = none := by
  refine ⟨by decide, ?_, ?_⟩
  · exact (C4_short_keyword_word_boundary (cl "MI") (by decide) (cl "go MI now") 3 2).mpr
      ⟨by decide, by decide, by decide, by decide⟩
  · cases hm : matcherMatchAt (build_matcher [cl "MI"]).1 (cl "Miami") 0 with
    | none => rfl
    | some n =>
      obtain ⟨h1, h2, h3, h4⟩ :=
        (C4_short_keyword_word_boundary (cl "MI") (by decide) (cl "Miami") 0 n).mp hm
      exact absurd h4 (by decide)

theorem iterJsonlAux_error_mem (jline : LineParse) :
    ∀ (lines : List (List Char)) (n k : Nat) (line msg : List Char),
      lines[k]? = some line → stripA line ≠ [] → jline (stripA line) = .error msg →
      (n + k, Json.obj [(cl "text", .str (stripA line)),
        (cl "_parse_error", .str (cl "invalid_json: " ++ msg))]) ∈
        iterJsonlAux jline lines n := by
  intro lines
  induction lines with
  | nil => intro n k line msg hk; simp at hk
  | cons l rest ih =>
    intro n k line msg hk hnb he
    cases k with
    | zero =>
      rw [List.getElem?_cons_zero] at hk
      injection hk with hk
      subst hk
      unfold iterJsonlAux
      rw [if_neg hnb, he]
      simp
    | succ k =>
      rw [List.getElem?_cons_succ] at hk
      have hmem := ih (n + 1) k line msg hk hnb he
      have harith : n + 1 + k = n + (k + 1) := by omega
      rw [harith] at hmem
      unfold iterJsonlAux
      by_cases hs : stripA l = []
      · rw [if_pos hs]
        exact hmem
      · rw [if_neg hs]
        cases hp : jline (stripA l) with
        | ok v => exact List.mem_cons_of_mem _ hmem
        | error e => exact List.mem_cons_of_mem _ hmem

/-- C7 (amended): every non-blank `.jsonl` line that fails to parse
yields, at its 1-based line position, the synthetic record
`text: stripped line, _parse_error: invalid_json message` — the line is
kept as a matchable record rather than dropped (the originally claimed key
name `parse_error` and raw-line text do not match the source, which uses
`_parse_error` and the stripped line). -/
theorem C7_jsonl_parse_error_preserved (jline : LineParse) (lines : List (List Char))
    (k : Nat) (line msg : List Char) (hk : lines[k]? = some line)
    (hnb : stripA line ≠ []) (he : jline (stripA line) = .error msg) :
    (k + 1, Json.obj [(cl "text", .str (stripA line)),
      (cl "_parse_error", .str (cl "invalid_json: " ++ msg))]) ∈
      iter_jsonl_records jline lines := by
  have h := iterJsonlAux_error_mem jline lines 1 k line msg hk hnb he
  have harith : 1 + k = k + 1 := by omega
  rw [harith] at h
  exact h

/-- C7 witness: the malformed second line of the mixed fixture file. -/
theorem C7_witness :
    (2, Json.obj [(cl "text", .str (cl "notjson")),
      (cl "_parse_error",
       .str (cl "invalid_json: Expecting value: line 1 column 1 (char 0)"))]) ∈
      iter_jsonl_records parseQuoted [lineMI, lineBad] := by
  have h := C7_jsonl_parse_error_preserved parseQuoted [lineMI, lineBad] 1 lineBad
    (cl "Expecting value: line 1 column 1 (char 0)") (by rfl) (by decide) (by rfl)
  exact h

/-- C7 counterexample: the claimed record shape is not what the reader
produces — the synthetic record stores the stripped line (not the raw
line) and uses the key `_parse_error` (there is no `parse_error` key). -/
theorem C7_counterexample :
    iter_jsonl_records parseQuoted [lineBad] =
      [(1, Json.obj [(cl "text", .str (cl "notjson")),
        (cl "_parse_error",
         .str (cl "invalid_json: Expecting value: line 1 column 1 (char 0)"))])] ∧
    cl "notjson" ≠ lineBad ∧
    lookupKey [(cl "text", .str (cl "notjson")),
      (cl "_parse_error",
       .str (cl "invalid_json: Expecting value: line 1 column 1 (char 0)"))]
      (cl "parse_error") = none :=
  ⟨rfl, by decide, rfl⟩

/-! Properties of the path splitting used by `derive_knowledge`. -/

theorem goodSeg_no_slash (s : List Char) (h : goodSeg s = true) :
    ∀ c ∈ s, c ≠ Char.ofNat 47 := by
  intro c hc
  have := List.all_eq_true.mp h c hc
  rw [Bool.and_eq_true] at this
  exact of_decide_eq_true this.1

theorem goodSeg_no_bs (s : List Char) (h : goodSeg s = true) :
    ∀ c ∈ s, c ≠ Char.ofNat 92 := by
  intro c hc
  have := List.all_eq_true.mp h c hc
  rw [Bool.and_eq_true] at this
  exact of_decide_eq_true this.2

theorem splitCharAux_no_sep (sep : Char) :
    ∀ (l cur : List Char), (∀ c ∈ l, c ≠ sep) →
      splitCharAux sep l cur = [cur.reverse ++ l] := by
  intro l
  induction l with
  | nil => intro cur h; simp [splitCharAux]
  | cons c rest ih =>
    intro cur h
    unfold splitCharAux
    rw [if_neg (h c (by simp))]
    rw [ih (c :: cur) (fun x hx => h x (List.mem_cons_of_mem c hx))]
    simp

theorem splitCharAux_sep_split (sep : Char) :
    ∀ (a r cur : List Char), (∀ c ∈ a, c ≠ sep) →
      splitCharAux sep (a ++ sep :: r) cur = (cur.reverse ++ a) :: splitCharAux sep r [] := by
  intro a
  induction a with
  | nil =>
    intro r cur h
    simp only [List.nil_append]
    unfold splitCharAux
    rw [if_pos rfl]
    simp only [List.append_nil]
    rw [splitCharAux.eq_def]
  | cons c rest ih =>
    intro r cur h
    simp only [List.cons_append]
    unfold splitCharAux
    rw [if_neg (h c (by simp))]
    rw [ih r (c :: cur) (fun x hx => h x (List.mem_cons_of_mem c hx))]
    simp only [List.reverse_cons, List.append_assoc, List.cons_append, List.nil_append,
      List.cons.injEq, true_and]
    rw [splitCharAux.eq_def]

theorem splitChar_joinSlash :
    ∀ segs : List (List Char), segs ≠ [] →
      (∀ s ∈ segs, ∀ c ∈ s, c ≠ Char.ofNat 47) →
      splitChar (Char.ofNat 47) (joinSlash segs) = segs := by
  intro segs
  induction segs with
  | nil => intro h; exact absurd rfl h
  | cons x rest ih =>
    intro _ hall
    cases rest with
    | nil =>
      show splitChar (Char.ofNat 47) x = [x]
      exact splitCharAux_no_sep (Char.ofNat 47) x [] (hall x (by simp))
    | cons y r =>
      show splitCharAux (Char.ofNat 47) (x ++ Char.ofNat 47 :: joinSlash (y :: r)) [] = _
      rw [splitCharAux_sep_split (Char.ofNat 47) x (joinSlash (y :: r)) []
        (hall x (by simp))]
      rw [show splitCharAux (Char.ofNat 47) (joinSlash (y :: r)) [] =
        splitChar (Char.ofNat 47) (joinSlash (y :: r)) from rfl]
      rw [ih (by simp) (fun s hs => hall s (List.mem_cons_of_mem x hs))]
      simp

theorem joinSlash_no_bs :
    ∀ segs : List (List Char), (∀ s ∈ segs, goodSeg s = true) →
      ∀ c ∈ joinSlash segs, c ≠ Char.ofNat 92 := by
  intro segs
  induction segs with
  | nil => intro _ c hc; simp [joinSlash] at hc
  | cons x rest ih =>
    intro hall c hc
    cases rest with
    | nil => exact goodSeg_no_bs x (hall x (by simp)) c hc
    | cons y r =>
      simp only [joinSlash] at hc
      rcases List.mem_append.mp hc with h | h
      · exact goodSeg_no_bs x (hall x (by simp)) c h
      · rcases List.mem_cons.mp h with rfl | h
        · decide
        · exact ih (fun s hs => hall s (List.mem_cons_of_mem x hs)) c h

theorem replaceBS_eq_self (l : List Char) (h : ∀ c ∈ l, c ≠ Char.ofNat 92) :
    replaceBS l = l := by
  unfold replaceBS
  have h2 : ∀ c ∈ l, (if c = Char.ofNat 92 then Char.ofNat 47 else c) = id c :=
    fun c hc => by simp [h c hc]
  rw [List.map_congr_left h2, List.map_id]

theorem joinSlash_ne_nil_of_two :
    ∀ segs : List (List Char), 2 ≤ segs.length → joinSlash segs ≠ [] := by
  intro segs h
  cases segs with
  | nil => simp at h
  | cons x rest =>
    cases rest with
    | nil => simp at h
    | cons y r => simp [joinSlash]

theorem firstIdx_append_not_mem :
    ∀ (pre : List (List Char)) (t : List Char) (rest : List (List Char)),
      t ∉ pre → firstIdx (pre ++ t :: rest) t = pre.length := by
  intro pre
  induction pre with
  | nil => intro t rest _; simp [firstIdx]
  | cons x xs ih =>
    intro t rest hnm
    have hx : x ≠ t := fun h => hnm (by rw [h]; simp)
    simp only [List.cons_append]
    unfold firstIdx
    rw [if_neg hx, ih t rest (fun h => hnm (List.mem_cons_of_mem x h))]
    simp

theorem deriveFromParts_questions (pre post : List (List Char)) (region file : List Char)
    (hnm : cl "questions" ∉ pre) :
    deriveFromParts (pre ++ cl "questions" :: region :: file :: post) =
      region ++ Char.ofNat 47 :: takeBeforeDot file := by
  have hcont : (pre ++ cl "questions" :: region :: file :: post).contains (cl "questions") = true :=
    List.elem_eq_true_of_mem (List.mem_append_right pre (by simp))
  have hidx : firstIdx (pre ++ cl "questions" :: region :: file :: post) (cl "questions") =
      pre.length := firstIdx_append_not_mem pre _ _ hnm
  have hlt : pre.length + 2 < (pre ++ cl "questions" :: region :: file :: post).length := by
    rw [List.length_append]
    simp
  have hg1 : (pre ++ cl "questions" :: region :: file :: post).getD (pre.length + 1) [] =
      region := by
    rw [List.getD_eq_getElem?_getD, List.getElem?_append_right (by omega)]
    have h1 : pre.length + 1 - pre.length = 1 := by omega
    rw [h1]
    simp
  have hg2 : (pre ++ cl "questions" :: region :: file :: post).getD (pre.length + 2) [] =
      file := by
    rw [List.getD_eq_getElem?_getD, List.getElem?_append_right (by omega)]
    have h1 : pre.length + 2 - pre.length = 2 := by omega
    rw [h1]
    simp
  simp only [deriveFromParts, hcont, if_true, hidx, hlt, if_pos, hg1, hg2]

theorem deriveFromParts_two (a b : List Char) :
    deriveFromParts [a, b] = takeBeforeDot (a ++ Char.ofNat 47 :: b) := by
  simp only [deriveFromParts]
  have h : ¬(firstIdx [a, b] (cl "questions") + 2 < ([a, b] : List (List Char)).length) := by
    simp
  by_cases hc : ([a, b] : List (List Char)).contains (cl "questions") = true
  · rw [if_pos hc, if_neg h]
    simp [joinSlash]
  · rw [if_neg hc]
    simp [joinSlash]

/-- The fallback of lines 28-30 fires for every part list in which the
`questions` pattern does not fire: either no `questions` segment exists
(then `firstIdx` is the list length, so the hypothesis holds trivially)
or the first `questions` segment is not followed by two more segments. -/
theorem deriveFromParts_fallback (parts : List (List Char))
    (h : ¬(firstIdx parts (cl "questions") + 2 < parts.length))
    (h2 : 2 ≤ parts.length) :
    deriveFromParts parts =
      takeBeforeDot (joinSlash (parts.drop (parts.length - 2))) := by
  simp only [deriveFromParts]
  by_cases hc : parts.contains (cl "questions") = true
  · rw [if_pos hc, if_neg h]
    exact if_pos h2
  · rw [if_neg hc]
    exact if_pos h2

theorem deriveFromParts_one (a : List Char) :
    deriveFromParts [a] = takeBeforeDot a := by
  simp only [deriveFromParts]
  have h : ¬(firstIdx [a] (cl "questions") + 2 < ([a] : List (List Char)).length) := by
    simp
  by_cases hc : ([a] : List (List Char)).contains (cl "questions") = true
  · rw [if_pos hc, if_neg h]
    simp
  · rw [if_neg hc]
    simp

/-- C8 (amended): the `Knowledge` label derivation.  With a first
`questions/<REGION>/<SPLIT>` segment group present (the `questions`
segment followed by at least two segments), the label is
`<REGION>/<SPLIT-up-to-its-FIRST-dot>`.  For every other path of at
least two segments — no `questions` segment at all, or `questions` not
followed by two segments — the label is the joined last two segments cut
at the first dot of the JOINED string (so a dot in the second-to-last
segment truncates before the separator — not plain extension stripping);
a single segment is cut at its first dot; an absent or empty
`source_path` yields `unknown`. -/
theorem C8_knowledge_label :
    (∀ pre post : List (List Char), ∀ region file : List Char,
      (∀ s ∈ pre, goodSeg s = true) → goodSeg region = true → goodSeg file = true →
      (∀ s ∈ post, goodSeg s = true) → cl "questions" ∉ pre →
      derive_knowledge_path (joinSlash (pre ++ cl "questions" :: region :: file :: post)) =
        region ++ Char.ofNat 47 :: takeBeforeDot file) ∧
    (∀ segs : List (List Char), 2 ≤ segs.length →
      (∀ s ∈ segs, goodSeg s = true) →
      ¬(firstIdx segs (cl "questions") + 2 < segs.length) →
      derive_knowledge_path (joinSlash segs) =
        takeBeforeDot (joinSlash (segs.drop (segs.length - 2)))) ∧
    (∀ a : List Char, goodSeg a = true → a ≠ [] →
      derive_knowledge_path a = takeBeforeDot a) ∧
    derive_knowledge_path [] = cl "unknown" ∧
    derive_knowledge none = cl "unknown" ∧
    (∀ fs, lookupKey fs (cl "source_path") = none →
      derive_knowledge (some fs) = cl "unknown") := by
  refine ⟨?_, ?_, ?_, rfl, rfl, ?_⟩
  · intro pre post region file hpre hreg hfile hpost hnm
    have hallgood : ∀ s ∈ pre ++ cl "questions" :: region :: file :: post,
        goodSeg s = true := by
      intro s hs
      rcases List.mem_append.mp hs with h | h
      · exact hpre s h
      · rcases List.mem_cons.mp h with rfl | h
        · decide
        · rcases List.mem_cons.mp h with rfl | h
          · exact hreg
          · rcases List.mem_cons.mp h with rfl | h
            · exact hfile
            · exact hpost s h
    have hne : joinSlash (pre ++ cl "questions" :: region :: file :: post) ≠ [] := by
      apply joinSlash_ne_nil_of_two
      rw [List.length_append]
      simp only [List.length_cons]
      omega
    unfold derive_knowledge_path
    rw [if_neg hne]
    rw [replaceBS_eq_self _ (joinSlash_no_bs _ hallgood)]
    rw [splitChar_joinSlash _ (by simp) (fun s hs => goodSeg_no_slash s (hallgood s hs))]
    exact deriveFromParts_questions pre post region file hnm
  · intro segs hlen hallgood hq
    have hnil : segs ≠ [] := by
      intro hz
      rw [hz] at hlen
      simp at hlen
    have hne : joinSlash segs ≠ [] := joinSlash_ne_nil_of_two segs hlen
    unfold derive_knowledge_path
    rw [if_neg hne]
    rw [replaceBS_eq_self _ (joinSlash_no_bs _ hallgood)]
    rw [splitChar_joinSlash _ hnil (fun s hs => goodSeg_no_slash s (hallgood s hs))]
    exact deriveFromParts_fallback segs hq hlen
  · intro a ha hne
    unfold derive_knowledge_path
    rw [if_neg hne]
    rw [replaceBS_eq_self _ (goodSeg_no_bs a ha)]
    rw [show splitChar (Char.ofNat 47) a = [a] from
      splitCharAux_no_sep (Char.ofNat 47) a [] (goodSeg_no_slash a ha)]
    exact deriveFromParts_one a
  · intro fs hls
    simp only [derive_knowledge, hls]
    rfl

/-- C8 witness: the documented example path, a three-segment path with
no `questions` segment, and a path whose `questions` segment sits too
near the end for the pattern to fire. -/
theorem C8_witness :
    (derive_knowledge_path
      (joinSlash ([cl "data", cl "raw"] ++ cl "questions" :: cl "US" :: cl "dev.jsonl" :: [])) =
      cl "US" ++ Char.ofNat 47 :: takeBeforeDot (cl "dev.jsonl")) ∧
    (derive_knowledge_path (joinSlash [cl "data", cl "raw", cl "tw.jsonl"]) =
      takeBeforeDot (joinSlash ([cl "data", cl "raw", cl "tw.jsonl"].drop 1))) ∧
    (derive_knowledge_path (joinSlash [cl "a", cl "b", cl "questions"]) =
      takeBeforeDot (joinSlash ([cl "a", cl "b", cl "questions"].drop 1))) :=
  ⟨C8_knowledge_label.1 [cl "data", cl "raw"] [] (cl "US") (cl "dev.jsonl")
      (by decide) (by decide) (by decide) (by decide) (by decide),
   C8_knowledge_label.2.1 [cl "data", cl "raw", cl "tw.jsonl"]
      (by decide) (by decide) (by decide),
   C8_knowledge_label.2.1 [cl "a", cl "b", cl "questions"]
      (by decide) (by decide) (by decide)⟩

/-- C8 counterexample: with no `questions` pattern and a dotted
second-to-last segment, the code cuts the joined last two segments at the
FIRST dot: `data.v2/dev.jsonl` yields `data`, not the claimed last two
segments with the extension stripped (`data.v2/dev`). -/
theorem C8_counterexample :
    derive_knowledge_path (cl "data.v2/dev.jsonl") = cl "data" ∧
    cl "data" ≠ cl "data.v2/dev" :=
  ⟨rfl, by decide⟩

/-! Dry-run equivalence: the scan counters never read `dryRun` or the
accumulated output lines. -/

theorem processRecords_dry (cfg : Config) (b1 b2 : Bool) (m : Matcher) (path : List Char) :
    ∀ (rs : List (Nat × Json)) (st1 st2 : RunState),
      st1.scannedFiles = st2.scannedFiles → st1.totalRecords = st2.totalRecords →
      st1.matchedRecords = st2.matchedRecords → st1.processed = st2.processed →
      st1.warnings = st2.warnings →
      (processRecords { cfg with dryRun := b1 } m path rs st1).scannedFiles =
        (processRecords { cfg with dryRun := b2 } m path rs st2).scannedFiles ∧
      (processRecords { cfg with dryRun := b1 } m path rs st1).totalRecords =
        (processRecords { cfg with dryRun := b2 } m path rs st2).totalRecords ∧
      (processRecords { cfg with dryRun := b1 } m path rs st1).matchedRecords =
        (processRecords { cfg with dryRun := b2 } m path rs st2).matchedRecords ∧
      (processRecords { cfg with dryRun := b1 } m path rs st1).processed =
        (processRecords { cfg with dryRun := b2 } m path rs st2).processed ∧
      (processRecords { cfg with dryRun := b1 } m path rs st1).warnings =
        (processRecords { cfg with dryRun := b2 } m path rs st2).warnings := by
  intro rs
  induction rs with
  | nil =>
    intro st1 st2 h1 h2 h3 h4 h5
    exact ⟨h1, h2, h3, h4, h5⟩
  | cons r rest ih =>
    intro st1 st2 h1 h2 h3 h4 h5
    obtain ⟨ln, rec⟩ := r
    unfold processRecords
    dsimp only
    rw [← h2]
    by_cases hg : (cfg.maxRecords ≠ 0 && decide (cfg.maxRecords < st1.totalRecords + 1)) = true
    · rw [if_pos hg, if_pos hg]
      exact ⟨by simp [h1], by simp, by simp [h3], by simp [h4], by simp [h5]⟩
    · rw [if_neg hg, if_neg hg]
      by_cases hh : detect_matches m
          (extract_text_from_record rec cfg.maxFlattenItems cfg.includeFields
            cfg.excludeFields) cfg.maxHitsPerRecord = []
      · rw [if_pos hh, if_pos hh]
        exact ih _ _ (by simp [h1]) (by simp) (by simp [h3]) (by simp [h4]) (by simp [h5])
      · rw [if_neg hh, if_neg hh]
        cases b1 <;> cases b2 <;>
          exact ih _ _ (by simp [h1]) (by simp) (by simp [h3]) (by simp [h4]) (by simp [h5])

theorem processFiles_dry (cfg : Config) (b1 b2 : Bool) (m : Matcher)
    (jline : LineParse) (jfile : FileParse) :
    ∀ (files : List FileEntry) (st1 st2 : RunState),
      st1.scannedFiles = st2.scannedFiles → st1.totalRecords = st2.totalRecords →
      st1.matchedRecords = st2.matchedRecords → st1.processed = st2.processed →
      st1.warnings = st2.warnings →
      (processFiles { cfg with dryRun := b1 } m jline jfile files st1).1.scannedFiles =
        (processFiles { cfg with dryRun := b2 } m jline jfile files st2).1.scannedFiles ∧
      (processFiles { cfg with dryRun := b1 } m jline jfile files st1).1.totalRecords =
        (processFiles { cfg with dryRun := b2 } m jline jfile files st2).1.totalRecords ∧
      (processFiles { cfg with dryRun := b1 } m jline jfile files st1).1.matchedRecords =
        (processFiles { cfg with dryRun := b2 } m jline jfile files st2).1.matchedRecords ∧
      (processFiles { cfg with dryRun := b1 } m jline jfile files st1).1.processed =
        (processFiles { cfg with dryRun := b2 } m jline jfile files st2).1.processed ∧
      (processFiles { cfg with dryRun := b1 } m jline jfile files st1).1.warnings =
        (processFiles { cfg with dryRun := b2 } m jline jfile files st2).1.warnings ∧
      (processFiles { cfg with dryRun := b1 } m jline jfile files st1).2 =
        (processFiles { cfg with dryRun := b2 } m jline jfile files st2).2 := by
  intro files
  induction files with
  | nil =>
    intro st1 st2 h1 h2 h3 h4 h5
    exact ⟨h1, h2, h3, h4, h5, rfl⟩
  | cons f rest ih =>
    intro st1 st2 h1 h2 h3 h4 h5
    unfold processFiles
    dsimp only
    cases ho : fileOutcome jline jfile cfg.minLineLength f with
    | skipWarn =>
      dsimp only
      exact ih _ _ (by simp [h1]) (by simp [h2]) (by simp [h3]) (by simp [h4])
        (by simp [h5])
    | skipSilent =>
      dsimp only
      exact ih _ _ (by simp [h1]) (by simp [h2]) (by simp [h3]) (by simp [h4])
        (by simp [h5])
    | fatalDuringIter =>
      dsimp only
      exact ⟨by simp [h1], by simp [h2], by simp [h3], by simp [h4], by simp [h5], rfl⟩
    | records rs =>
      dsimp only
      obtain ⟨hr1, hr2, hr3, hr4, hr5⟩ := processRecords_dry cfg b1 b2 m f.path rs
        { st1 with scannedFiles := st1.scannedFiles + 1 }
        { st2 with scannedFiles := st2.scannedFiles + 1 }
        (by simp [h1]) (by simp [h2]) (by simp [h3]) (by simp [h4]) (by simp [h5])
      rw [hr2]
      by_cases hg : (cfg.maxRecords ≠ 0 && decide (cfg.maxRecords ≤
          (processRecords { cfg with dryRun := b2 } m f.path rs
            { st2 with scannedFiles := st2.scannedFiles + 1 }).totalRecords)) = true
      · rw [if_pos hg, if_pos hg]
        exact ⟨hr1, hr2, hr3, hr4, hr5, rfl⟩
      · rw [if_neg hg, if_neg hg]
        exact ih _ _ hr1 hr2 hr3 hr4 hr5

/-- C9: a dry run and a normal run over the same input report identical
scanned-files / scanned-records / matched-records counts, and the dry run
produces no output file. -/
theorem C9_dry_run_equivalence (cfg : Config) (jline : LineParse) (jfile : FileParse)
    (root : InputRoot) :
    (runMain { cfg with dryRun := true } jline jfile root).reportedCounts =
      (runMain { cfg with dryRun := false } jline jfile root).reportedCounts ∧
    (runMain { cfg with dryRun := true } jline jfile root).output = none := by
  unfold runMain
  dsimp only
  by_cases hbm : (build_matcher cfg.keywords).2 = []
  · rw [if_pos hbm, if_pos hbm]
    exact ⟨rfl, rfl⟩
  · rw [if_neg hbm, if_neg hbm]
    obtain ⟨g1, g2, g3, g4, g5, g6⟩ := processFiles_dry cfg true false
      (build_matcher cfg.keywords).1 jline jfile (iter_files root cfg.allowedExts)
      initState initState rfl rfl rfl rfl rfl
    constructor
    · dsimp only
      rw [g6, g1, g2, g3]
    · rfl

/-! The `--max-records` ceiling. -/

theorem processRecords_ceiling (cfg : Config) (m : Matcher) (path : List Char)
    (hmax : cfg.maxRecords ≠ 0) :
    ∀ (rs : List (Nat × Json)) (st : RunState),
      st.totalRecords ≤ cfg.maxRecords → st.processed.length ≤ st.totalRecords →
      (processRecords cfg m path rs st).totalRecords ≤ cfg.maxRecords + 1 ∧
      (processRecords cfg m path rs st).processed.length ≤ cfg.maxRecords ∧
      (processRecords cfg m path rs st).processed.length ≤
        (processRecords cfg m path rs st).totalRecords := by
  intro rs
  induction rs with
  | nil =>
    intro st h1 h2
    rw [show processRecords cfg m path [] st = st from rfl]
    exact ⟨by omega, by omega, h2⟩
  | cons r rest ih =>
    intro st h1 h2
    obtain ⟨ln, rec⟩ := r
    unfold processRecords
    dsimp only
    by_cases hg : (cfg.maxRecords ≠ 0 && decide (cfg.maxRecords < st.totalRecords + 1)) = true
    · rw [if_pos hg]
      exact ⟨by simp; omega, by simp; omega, by simp; omega⟩
    · rw [if_neg hg]
      have hlt : st.totalRecords + 1 ≤ cfg.maxRecords := by
        by_contra hc
        exact hg (by simp [hmax]; omega)
      by_cases hh : detect_matches m
          (extract_text_from_record rec cfg.maxFlattenItems cfg.includeFields
            cfg.excludeFields) cfg.maxHitsPerRecord = []
      · rw [if_pos hh]
        exact ih _ (by simp; omega) (by simp [List.length_append]; omega)
      · rw [if_neg hh]
        by_cases hd : cfg.dryRun = true
        · simp only [hd, if_true]
          exact ih _ (by simp; omega) (by simp [List.length_append]; omega)
        · simp only [Bool.not_eq_true] at hd
          simp only [hd, Bool.false_eq_true, if_false]
          exact ih _ (by simp; omega) (by simp [List.length_append]; omega)

theorem processRecords_nolimit (cfg : Config) (m : Matcher) (path : List Char)
    (hmax : cfg.maxRecords = 0) :
    ∀ (rs : List (Nat × Json)) (st : RunState),
      (processRecords cfg m path rs st).totalRecords = st.totalRecords + rs.length ∧
      (processRecords cfg m path rs st).processed.length =
        st.processed.length + rs.length := by
  intro rs
  induction rs with
  | nil =>
    intro st
    rw [show processRecords cfg m path [] st = st from rfl]
    exact ⟨rfl, by simp⟩
  | cons r rest ih =>
    intro st
    obtain ⟨ln, rec⟩ := r
    unfold processRecords
    dsimp only
    rw [if_neg (by simp [hmax])]
    by_cases hh : detect_matches m
        (extract_text_from_record rec cfg.maxFlattenItems cfg.includeFields
          cfg.excludeFields) cfg.maxHitsPerRecord = []
    · rw [if_pos hh]
      obtain ⟨g1, g2⟩ := ih ({ { st with totalRecords := st.totalRecords + 1 } with
        processed := { st with totalRecords := st.totalRecords + 1 }.processed ++ [(path, ln)] })
      constructor
      · rw [g1]; simp; omega
      · rw [g2]; simp [List.length_append]; omega
    · rw [if_neg hh]
      by_cases hd : cfg.dryRun = true
      · simp only [hd, if_true]
        constructor
        · rw [(ih _).1]; simp; omega
        · rw [(ih _).2]; simp [List.length_append]; omega
      · simp only [Bool.not_eq_true] at hd
        simp only [hd, Bool.false_eq_true, if_false]
        constructor
        · rw [(ih _).1]; simp; omega
        · rw [(ih _).2]; simp [List.length_append]; omega

theorem processFiles_ceiling (cfg : Config) (m : Matcher) (jline : LineParse)
    (jfile : FileParse) (hmax : cfg.maxRecords ≠ 0) :
    ∀ (files : List FileEntry) (st : RunState),
      st.totalRecords < cfg.maxRecords → st.processed.length ≤ st.totalRecords →
      (processFiles cfg m jline jfile files st).1.totalRecords ≤ cfg.maxRecords + 1 ∧
      (processFiles cfg m jline jfile files st).1.processed.length ≤ cfg.maxRecords := by
  intro files
  induction files with
  | nil =>
    intro st h1 h2
    rw [show processFiles cfg m jline jfile [] st = (st, false) from rfl]
    exact ⟨by simp; omega, by simp; omega⟩
  | cons f rest ih =>
    intro st h1 h2
    unfold processFiles
    dsimp only
    cases ho : fileOutcome jline jfile cfg.minLineLength f with
    | skipWarn =>
      dsimp only
      exact ih _ (by simp; omega) (by simp; omega)
    | skipSilent =>
      dsimp only
      exact ih _ (by simp; omega) (by simp; omega)
    | fatalDuringIter =>
      dsimp only
      exact ⟨by omega, by omega⟩
    | records rs =>
      dsimp only
      obtain ⟨g1, g2, g3⟩ := processRecords_ceiling cfg m f.path hmax rs
        { st with scannedFiles := st.scannedFiles + 1 }
        (by simp; omega) (by simp; omega)
      by_cases hg : (cfg.maxRecords ≠ 0 && decide (cfg.maxRecords ≤
          (processRecords cfg m f.path rs
            { st with scannedFiles := st.scannedFiles + 1 }).totalRecords)) = true
      · rw [if_pos hg]
        exact ⟨g1, g2⟩
      · rw [if_neg hg]
        have hlt : (processRecords cfg m f.path rs
            { st with scannedFiles := st.scannedFiles + 1 }).totalRecords <
            cfg.maxRecords := by
          by_contra hc
          exact hg (by simp [hmax]; omega)
        exact ih _ hlt (by omega)

theorem processFiles_nolimit (cfg : Config) (m : Matcher) (jline : LineParse)
    (jfile : FileParse) (hmax : cfg.maxRecords = 0) :
    ∀ (files : List FileEntry) (st : RunState),
      noFatal jline jfile cfg.minLineLength files = true →
      (processFiles cfg m jline jfile files st).1.totalRecords =
        st.totalRecords + availRecords jline jfile cfg.minLineLength files ∧
      (processFiles cfg m jline jfile files st).1.processed.length =
        st.processed.length + availRecords jline jfile cfg.minLineLength files ∧
      (processFiles cfg m jline jfile files st).2 = false := by
  intro files
  induction files with
  | nil =>
    intro st _
    rw [show processFiles cfg m jline jfile [] st = (st, false) from rfl]
    refine ⟨?_, ?_, rfl⟩ <;> simp [availRecords]
  | cons f rest ih =>
    intro st hnf
    have hnf_f : isFatalOutcome (fileOutcome jline jfile cfg.minLineLength f) = false := by
      unfold noFatal at hnf
      rw [List.all_cons, Bool.and_eq_true] at hnf
      have := hnf.1
      simp at this
      simp [this]
    have hnf_rest : noFatal jline jfile cfg.minLineLength rest = true := by
      unfold noFatal at hnf ⊢
      rw [List.all_cons, Bool.and_eq_true] at hnf
      exact hnf.2
    have havail : availRecords jline jfile cfg.minLineLength (f :: rest) =
        fileRecordCount jline jfile cfg.minLineLength f +
          availRecords jline jfile cfg.minLineLength rest := by
      unfold availRecords
      simp
    unfold processFiles
    dsimp only
    cases ho : fileOutcome jline jfile cfg.minLineLength f with
    | skipWarn =>
      dsimp only
      obtain ⟨g1, g2, g3⟩ := ih { { st with scannedFiles := st.scannedFiles + 1 } with
        warnings := { st with scannedFiles := st.scannedFiles + 1 }.warnings + 1 } hnf_rest
      have hcount : fileRecordCount jline jfile cfg.minLineLength f = 0 := by
        unfold fileRecordCount
        rw [ho]
      rw [havail, hcount, g1, g2]
      exact ⟨by simp, by simp, g3⟩
    | skipSilent =>
      dsimp only
      obtain ⟨g1, g2, g3⟩ := ih { st with scannedFiles := st.scannedFiles + 1 } hnf_rest
      have hcount : fileRecordCount jline jfile cfg.minLineLength f = 0 := by
        unfold fileRecordCount
        rw [ho]
      rw [havail, hcount, g1, g2]
      exact ⟨by simp, by simp, g3⟩
    | fatalDuringIter =>
      rw [ho] at hnf_f
      simp [isFatalOutcome] at hnf_f
    | records rs =>
      dsimp only
      rw [if_neg (by simp [hmax])]
      obtain ⟨p1, p2⟩ := processRecords_nolimit cfg m f.path hmax rs
        { st with scannedFiles := st.scannedFiles + 1 }
      obtain ⟨g1, g2, g3⟩ := ih (processRecords cfg m f.path rs
        { st with scannedFiles := st.scannedFiles + 1 }) hnf_rest
      have hcount : fileRecordCount jline jfile cfg.minLineLength f = rs.length := by
        unfold fileRecordCount
        rw [ho]
      rw [havail, hcount, g1, g2, p1, p2]
      exact ⟨by simp; omega, by simp; omega, g3⟩

/-- C1 (amended): with a positive `--max-records N`, at most `N` records
are processed (reach the matching step), and the reported scanned total is
at most `N + 1` — the `(N+1)`-th record, when its file continues past the
ceiling, is read and counted before the loop breaks, so "Total
records/lines scanned" can report `N + 1`, not exactly `N`.  With
`--max-records 0` no ceiling applies: every available record of every
non-failing selected file is scanned and processed. -/
theorem C1_max_records_ceiling (cfg : Config) (jline : LineParse) (jfile : FileParse)
    (root : InputRoot) (hkw : (build_matcher cfg.keywords).2 ≠ []) :
    (cfg.maxRecords ≠ 0 →
      (runMain cfg jline jfile root).totalRecords ≤ cfg.maxRecords + 1 ∧
      (runMain cfg jline jfile root).processed.length ≤ cfg.maxRecords) ∧
    (cfg.maxRecords = 0 →
      noFatal jline jfile cfg.minLineLength (iter_files root cfg.allowedExts) = true →
      (runMain cfg jline jfile root).totalRecords =
        availRecords jline jfile cfg.minLineLength (iter_files root cfg.allowedExts) ∧
      (runMain cfg jline jfile root).processed.length =
        availRecords jline jfile cfg.minLineLength (iter_files root cfg.allowedExts)) := by
  constructor
  · intro hmax
    unfold runMain
    rw [if_neg hkw]
    dsimp only
    obtain ⟨g1, g2⟩ := processFiles_ceiling cfg (build_matcher cfg.keywords).1 jline jfile
      hmax (iter_files root cfg.allowedExts) initState (by simp [initState]; omega)
      (by simp [initState])
    exact ⟨g1, g2⟩
  · intro hmax hnf
    unfold runMain
    rw [if_neg hkw]
    dsimp only
    obtain ⟨g1, g2, g3⟩ := processFiles_nolimit cfg (build_matcher cfg.keywords).1 jline
      jfile hmax (iter_files root cfg.allowedExts) initState hnf
    rw [g1, g2]
    exact ⟨by simp [initState], by simp [initState]⟩

/-- C1 witness: the ceiling bounds at the ten-record fixture with
`--max-records 5`. -/
theorem C1_witness :
    (runMain { cfgBase with maxRecords := 5 } parseQuoted parseQuotedFile
      (.dir [fileTen])).totalRecords ≤ 5 + 1 ∧
    (runMain { cfgBase with maxRecords := 5 } parseQuoted parseQuotedFile
      (.dir [fileTen])).processed.length ≤ 5 :=
  (C1_max_records_ceiling { cfgBase with maxRecords := 5 } parseQuoted parseQuotedFile
    (.dir [fileTen]) (by decide)).1 (by decide)

/-- C1 counterexample: `--max-records 5` on a single ten-record file
reports a scanned total of 6, not 5 — the 6th record is read and counted
before the break. -/
theorem C1_counterexample :
    (runMain { cfgBase with maxRecords := 5 } parseQuoted parseQuotedFile
      (.dir [fileTen])).reportedCounts = some (1, 6, 5) ∧ (6 : Nat) ≠ 5 :=
  ⟨by decide, by decide⟩

/-- C2: concrete evaluation of per-file error handling.  An unreadable
`.json` document is skipped with a warning and the scan continues (second
conjunct), as the claim says — but an unreadable `.jsonl` file raises
lazily inside the record loop, outside the per-file `try/except`: the
whole run aborts with exit code 1, no warning, no summary, and the
following readable file is never scanned (first conjunct), contradicting
the claim that only output-sink failures or interruption abort the run. -/
theorem C2_unreadable_file_behavior :
    ((runMain cfgBase parseQuoted parseQuotedFile
        (.dir [fileBadReadJsonl, fileAfter])).exitCode = 1 ∧
     (runMain cfgBase parseQuoted parseQuotedFile
        (.dir [fileBadReadJsonl, fileAfter])).reportedCounts = none ∧
     (runMain cfgBase parseQuoted parseQuotedFile
        (.dir [fileBadReadJsonl, fileAfter])).scannedFiles = 1 ∧
     (runMain cfgBase parseQuoted parseQuotedFile
        (.dir [fileBadReadJsonl, fileAfter])).warnings = 0 ∧
     (runMain cfgBase parseQuoted parseQuotedFile
        (.dir [fileBadReadJsonl, fileAfter])).matchedRecords = 0) ∧
    ((runMain cfgBase parseQuoted parseQuotedFile
        (.dir [fileBadReadJsonDoc, fileAfter])).exitCode = 0 ∧
     (runMain cfgBase parseQuoted parseQuotedFile
        (.dir [fileBadReadJsonDoc, fileAfter])).warnings = 1 ∧
     (runMain cfgBase parseQuoted parseQuotedFile
        (.dir [fileBadReadJsonDoc, fileAfter])).scannedFiles = 2 ∧
     (runMain cfgBase parseQuoted parseQuotedFile
        (.dir [fileBadReadJsonDoc, fileAfter])).matchedRecords = 1) := by
  decide

/-- C10: a single-file `--input` bypasses the extension allow-list
(`iter_files` yields it unconditionally; the filter applies only to
directory traversal), and a single file whose extension is none of
`.jsonl`/`.txt`/`.json` is then silently skipped by the
`else: continue` — counted among scanned files, with no records, no
matches, no warning, and a normal exit. -/
theorem C10_single_file_bypasses_filter :
    (∀ (f : FileEntry) (allowed : List (List Char)), iter_files (.file f) allowed = [f]) ∧
    (∀ (files : List FileEntry) (allowed : List (List Char)),
      iter_files (.dir files) allowed =
        files.filter (fun f => allowed.contains (extOf f.path))) ∧
    (∀ (cfg : Config) (jline : LineParse) (jfile : FileParse) (f : FileEntry),
      (build_matcher cfg.keywords).2 ≠ [] →
      extOf f.path ≠ cl ".jsonl" → extOf f.path ≠ cl ".txt" → extOf f.path ≠ cl ".json" →
      (runMain cfg jline jfile (.file f)).scannedFiles = 1 ∧
      (runMain cfg jline jfile (.file f)).totalRecords = 0 ∧
      (runMain cfg jline jfile (.file f)).matchedRecords = 0 ∧
      (runMain cfg jline jfile (.file f)).warnings = 0 ∧
      (runMain cfg jline jfile (.file f)).exitCode = 0) := by
  refine ⟨fun f allowed => rfl, fun files allowed => rfl, ?_⟩
  intro cfg jline jfile f hkw h1 h2 h3
  have ho : fileOutcome jline jfile cfg.minLineLength f = .skipSilent := by
    unfold fileOutcome
    rw [if_neg h1, if_neg h2, if_neg h3]
  have hp : processFiles cfg (build_matcher cfg.keywords).1 jline jfile [f] initState =
      ({ initState with scannedFiles := 1 }, false) := by
    unfold processFiles
    dsimp only
    rw [ho]
    rfl
  unfold runMain
  rw [if_neg hkw]
  dsimp only
  rw [show iter_files (.file f) cfg.allowedExts = [f] from rfl, hp]
  exact ⟨rfl, rfl, rfl, rfl, rfl⟩

/-- C10 witness: a readable `.md` file as the single input. -/
theorem C10_witness :
    (runMain cfgBase parseQuoted parseQuotedFile (.file fileMd)).scannedFiles = 1 ∧
    (runMain cfgBase parseQuoted parseQuotedFile (.file fileMd)).totalRecords = 0 ∧
    (runMain cfgBase parseQuoted parseQuotedFile (.file fileMd)).matchedRecords = 0 ∧
    (runMain cfgBase parseQuoted parseQuotedFile (.file fileMd)).warnings = 0 ∧
    (runMain cfgBase parseQuoted parseQuotedFile (.file fileMd)).exitCode = 0 :=
  C10_single_file_bypasses_filter.2.2 cfgBase parseQuoted parseQuotedFile fileMd
    (by decide) (by decide) (by decide) (by decide)

theorem lookupKey_setKey : ∀ (fs : List (List Char × Json)) (k : List Char) (v : Json),
    lookupKey (setKey fs k v) k = some v := by
  intro fs
  induction fs with
  | nil =>
    intro k v
    unfold setKey lookupKey
    rw [if_pos rfl]
  | cons kv rest ih =>
    intro k v
    obtain ⟨k2, v2⟩ := kv
    unfold setKey
    by_cases hk : k2 = k
    · rw [if_pos hk]
      unfold lookupKey
      rw [if_pos hk]
    · rw [if_neg hk]
      unfold lookupKey
      rw [if_neg hk]
      exact ih k v

theorem processRecords_output_shape (cfg : Config) (m : Matcher) (path : List Char) :
    ∀ (rs : List (Nat × Json)) (st : RunState),
      (∀ r ∈ st.outLines, ∃ record p ln hits, hits ≠ [] ∧
        r = buildOutputRecord record cfg.includeFields cfg.excludeFields p ln hits) →
      ∀ r ∈ (processRecords cfg m path rs st).outLines, ∃ record p ln hits, hits ≠ [] ∧
        r = buildOutputRecord record cfg.includeFields cfg.excludeFields p ln hits := by
  intro rs
  induction rs with
  | nil =>
    intro st h
    rw [show processRecords cfg m path [] st = st from rfl]
    exact h
  | cons r0 rest ih =>
    intro st h
    obtain ⟨ln, rec⟩ := r0
    unfold processRecords
    dsimp only
    by_cases hg : (cfg.maxRecords ≠ 0 && decide (cfg.maxRecords < st.totalRecords + 1)) = true
    · rw [if_pos hg]
      exact h
    · rw [if_neg hg]
      by_cases hh : detect_matches m
          (extract_text_from_record rec cfg.maxFlattenItems cfg.includeFields
            cfg.excludeFields) cfg.maxHitsPerRecord = []
      · rw [if_pos hh]
        exact ih _ h
      · rw [if_neg hh]
        by_cases hd : cfg.dryRun = true
        · simp only [hd, if_true]
          exact ih _ h
        · simp only [Bool.not_eq_true] at hd
          simp only [hd, Bool.false_eq_true, if_false]
          apply ih
          intro r hr
          dsimp only at hr
          rcases List.mem_append.mp hr with hr | hr
          · exact h r hr
          · rcases List.mem_singleton.mp hr with rfl
            exact ⟨rec, path, ln, _, hh, rfl⟩

theorem processFiles_output_shape (cfg : Config) (m : Matcher) (jline : LineParse)
    (jfile : FileParse) :
    ∀ (files : List FileEntry) (st : RunState),
      (∀ r ∈ st.outLines, ∃ record p ln hits, hits ≠ [] ∧
        r = buildOutputRecord record cfg.includeFields cfg.excludeFields p ln hits) →
      ∀ r ∈ (processFiles cfg m jline jfile files st).1.outLines,
        ∃ record p ln hits, hits ≠ [] ∧
        r = buildOutputRecord record cfg.includeFields cfg.excludeFields p ln hits := by
  intro files
  induction files with
  | nil =>
    intro st h
    rw [show processFiles cfg m jline jfile [] st = (st, false) from rfl]
    exact h
  | cons f rest ih =>
    intro st h
    unfold processFiles
    dsimp only
    cases ho : fileOutcome jline jfile cfg.minLineLength f with
    | skipWarn => exact ih _ h
    | skipSilent => exact ih _ h
    | fatalDuringIter => exact h
    | records rs =>
      dsimp only
      have hrec := processRecords_output_shape cfg m f.path rs
        { st with scannedFiles := st.scannedFiles + 1 } h
      by_cases hg : (cfg.maxRecords ≠ 0 && decide (cfg.maxRecords ≤
          (processRecords cfg m f.path rs
            { st with scannedFiles := st.scannedFiles + 1 }).totalRecords)) = true
      · rw [if_pos hg]
        exact hrec
      · rw [if_neg hg]
        exact ih _ hrec

/-- C3 (amended): every emitted output line is the field-filtered source
record with the extraction metadata injected under the key
`_extract_meta` (not `extract_meta`), and non-mapping records are emitted
wrapped as `raw: value, _extract_meta: metadata`.  Every emitted line
arises this way from some matched record. -/
theorem C3_output_record_shape :
    (∀ (record : Json) (inc : Option (List (List Char))) (exc : List (List Char))
        (path : List Char) (ln : Nat) (hits : List (List Char)),
      (∀ fields, record = .obj fields →
        buildOutputRecord record inc exc path ln hits =
          .obj (setKey (filterRecordFields fields inc exc) (cl "_extract_meta")
            (metaObj path ln hits))) ∧
      ((∀ fields, record ≠ .obj fields) →
        buildOutputRecord record inc exc path ln hits =
          .obj [(cl "raw", record), (cl "_extract_meta", metaObj path ln hits)]) ∧
      (∀ fs, buildOutputRecord record inc exc path ln hits = .obj fs →
        lookupKey fs (cl "_extract_meta") = some (metaObj path ln hits))) ∧
    (∀ (cfg : Config) (jline : LineParse) (jfile : FileParse) (root : InputRoot)
        (lines : List Json), cfg.dryRun = false →
      (runMain cfg jline jfile root).output = some lines →
      ∀ r ∈ lines, ∃ record p ln hits, hits ≠ [] ∧
        r = buildOutputRecord record cfg.includeFields cfg.excludeFields p ln hits) := by
  constructor
  · intro record inc exc path ln hits
    refine ⟨?_, ?_, ?_⟩
    · intro fields h
      subst h
      rfl
    · intro hne
      cases record with
      | obj fields => exact absurd rfl (hne fields)
      | null => rfl
      | str s => rfl
      | num n => rfl
      | bool b => rfl
      | arr l => rfl
    · intro fs hfs
      cases record with
      | obj fields =>
        have : buildOutputRecord (.obj fields) inc exc path ln hits =
            .obj (setKey (filterRecordFields fields inc exc) (cl "_extract_meta")
              (metaObj path ln hits)) := rfl
        rw [this] at hfs
        injection hfs with hfs
        subst hfs
        exact lookupKey_setKey _ _ _
      | null =>
        injection hfs with hfs
        subst hfs
        unfold lookupKey
        rw [if_neg (by decide)]
        unfold lookupKey
        rw [if_pos rfl]
      | str s =>
        injection hfs with hfs
        subst hfs
        unfold lookupKey
        rw [if_neg (by decide)]
        unfold lookupKey
        rw [if_pos rfl]
      | num n =>
        injection hfs with hfs
        subst hfs
        unfold lookupKey
        rw [if_neg (by decide)]
        unfold lookupKey
        rw [if_pos rfl]
      | bool b =>
        injection hfs with hfs
        subst hfs
        unfold lookupKey
        rw [if_neg (by decide)]
        unfold lookupKey
        rw [if_pos rfl]
      | arr l =>
        injection hfs with hfs
        subst hfs
        unfold lookupKey
        rw [if_neg (by decide)]
        unfold lookupKey
        rw [if_pos rfl]
  · intro cfg jline jfile root lines hdry hout r hr
    unfold runMain at hout
    by_cases hbm : (build_matcher cfg.keywords).2 = []
    · rw [if_pos hbm] at hout
      simp at hout
    · rw [if_neg hbm] at hout
      dsimp only at hout
      rw [hdry] at hout
      simp only [Bool.false_eq_true, if_false] at hout
      injection hout with hout
      subst hout
      exact processFiles_output_shape cfg (build_matcher cfg.keywords).1 jline jfile
        (iter_files root cfg.allowedExts) initState (by intro r hr; simp [initState] at hr)
        r hr

/-- C3 witness: the wrapped form of a non-mapping record. -/
theorem C3_witness :
    buildOutputRecord (.str (cl "MI")) none [cl "meta_info"] (cl "p") 1 [cl "MI"] =
      .obj [(cl "raw", .str (cl "MI")),
            (cl "_extract_meta", metaObj (cl "p") 1 [cl "MI"])] :=
  ((C3_output_record_shape.1 (.str (cl "MI")) none [cl "meta_info"] (cl "p") 1
    [cl "MI"]).2.1) (fun fields h => Json.noConfusion h)

/-- C3 counterexample: the only output line of a concrete run carries its
metadata under `_extract_meta`; there is no `extract_meta` key, refuting
the claim as stated. -/
theorem C3_counterexample :
    (runMain cfgBase parseQuoted parseQuotedFile (.dir [fileAfter])).output =
      some [Json.obj [(cl "raw", .str (cl "MI")),
        (cl "_extract_meta", metaObj (cl "data/raw/after.jsonl") 1 [cl "MI"])]] ∧
    lookupKey [(cl "raw", Json.str (cl "MI")),
        (cl "_extract_meta", metaObj (cl "data/raw/after.jsonl") 1 [cl "MI"])]
      (cl "extract_meta") = none :=
  ⟨rfl, rfl⟩
